import Mathlib

/-! Job manager of the parallel installer.

A model of `parallel-install/pkg/jobmanager/jobmanager.go`: the registry of
pre- and post-jobs, the dispatcher `execute` with its worker goroutines, and
the duration accounting.

Package-level variables become the fields of `State`.  The goroutines of
`execute` become a transition system on `Exec`, whose steps are the atomic
operations on the result channel, on the wait group and on the package
variables; a run of `execute` is a list of such steps (a schedule).
-/

namespace jobmanager

/-! ## Data model -/

abbrev component := String
abbrev executionTime := Int
abbrev jobName := String

/-- A Go `error` value: `none` is `nil`, `some text` is a non-nil error whose
`Error()` method yields `text`. -/
abbrev GoError := Option String

/-- The `*config.Config` handed to every job, an opaque handle (0 is `nil`). -/
abbrev Config := Nat
/-- The `kubernetes.Interface` handed to every job, an opaque handle. -/
abbrev KubeClient := Nat
/-- The `context.Context` handed to every job, an opaque handle. -/
abbrev Context := Nat

structure jobStatus where
  job : jobName
  status : Bool
  err : GoError
deriving DecidableEq, Repr

/-- The `job` interface: its three methods.  `execute` is taken to return. -/
structure job where
  execute : Config → KubeClient → Context → GoError
  when : component × executionTime
  identify : jobName

def Pre : executionTime := 0
def Post : executionTime := 1

/-- A Go `map[component][]job`: a key is absent (`none`) or bound to a slice. -/
abbrev JobMap := component → Option (List job)

/-- The expression `make(map[component][]job)`. -/
def emptyMap : JobMap := fun _ => none

/-- The index expression `m[c]`: the zero value (nil slice) for an absent key. -/
def mapIndex (m : JobMap) (c : component) : List job := (m c).getD []

/-- The assignment `m[c] = v`. -/
def mapStore (m : JobMap) (c : component) (v : List job) : JobMap :=
  fun k => if k = c then some v else m k

/-- The package-level variables.  `log` is the sink of the logger installed by
`SetLogger`: the lines it has received, oldest first.  A logger is taken to be
installed before any dispatch, as the package expects of its caller. -/
structure State where
  duration : Int
  preJobMap : JobMap
  postJobMap : JobMap
  finishedJobs : List jobStatus
  kubeClient : KubeClient
  cfg : Config
  log : List String

/-- The package variables after initialisation (`init` sets `duration` to 0). -/
def initState : State :=
  { duration := 0, preJobMap := emptyMap, postJobMap := emptyMap, finishedJobs := [],
    kubeClient := 0, cfg := 0, log := [] }

/-! ## Durations (`time.Duration` is an `int64` count of nanoseconds) -/

def maxDuration : Int := 2 ^ 63 - 1
def minDuration : Int := -(2 ^ 63)

/-- Two's complement wrap-around of `int64` arithmetic. -/
def wrapInt64 (x : Int) : Int := (x + 2 ^ 63) % 2 ^ 64 - 2 ^ 63

/-- The method `t.Sub(u)` on instants counted in nanoseconds: the difference,
saturated to the range of `time.Duration`. -/
def timeSub (t u : Int) : Int := max minDuration (min maxDuration (t - u))

/-! ## Registry -/

def register (j : job) (s : State) : Int × State :=
  let (component, executionTime) := j.when
  if executionTime = Pre then
    (0, { s with preJobMap := mapStore s.preJobMap component (mapIndex s.preJobMap component ++ [j]) })
  else if executionTime = Post then
    (0, { s with postJobMap := mapStore s.postJobMap component (mapIndex s.postJobMap component ++ [j]) })
  else
    (0, s)

def SetConfig (config : Config) (s : State) : State := { s with cfg := config }

def SetKubeClient (kc : KubeClient) (s : State) : State := { s with kubeClient := kc }

/-- Installs a logger; `logClient` is what its sink already holds. -/
def SetLogger (logClient : List String) (s : State) : State := { s with log := logClient }

def resetDuration (s : State) : State := { s with duration := 0 * 1000 }

def GetDuration (s : State) : Int × State :=
  let ret := s.duration
  (ret, resetDuration s)

def resetMap (exec : executionTime) (s : State) : State :=
  if exec = Pre then { s with preJobMap := emptyMap }
  else if exec = Post then { s with postJobMap := emptyMap }
  else s

def resetFinishedJobsMap (s : State) : State := { s with finishedJobs := [] }

/-! ## Dispatcher: the sequential parts -/

/-- The zero value `jobStatus{}`. -/
def emptyJob : jobStatus := { job := "", status := false, err := none }

/-- The status a worker builds from the result of `j.execute`. -/
def publish (j : job) (err : GoError) : jobStatus :=
  match err with
  | some e => { job := j.identify, status := false, err := some e }
  | none => { job := j.identify, status := true, err := none }

/-- The status the goroutine `worker` sends for job `j`. -/
def worker (cfg : Config) (kubeClient : KubeClient) (ctx : Context) (j : job) : jobStatus :=
  publish j (j.execute cfg kubeClient ctx)

/-- The verb `%s` applied to an `error`. -/
def errText : GoError → String
  | some e => e
  | none => "%!s(<nil>)"

/-- One call of `log.Infof`, with the message already formatted. -/
def Infof (msg : String) (s : State) : State := { s with log := s.log ++ [msg] }

/-- The body of the loop `for status := range statusChan`.  `render` is the
verb `%v` applied to a `jobStatus`, which belongs to the `fmt` package. -/
def loopBody (render : jobStatus → String) (s : State) (status : jobStatus) : State :=
  let s := Infof ("Job Status: " ++ render status) s
  if status ≠ emptyJob then
    let s := { s with finishedJobs := s.finishedJobs ++ [status] }
    if status.status = true then
      Infof ("Following job executed: " ++ status.job) s
    else if status.status = false then
      Infof ("Following job failed while execution: `" ++ status.job ++ "` with error: "
        ++ errText status.err) s
    else s
  else s

/-- The last two statements of `execute`, `t` being the value of `time.Now()`. -/
def addElapsed (start t : Int) (s : State) : State :=
  { s with duration := wrapInt64 (s.duration + timeSub t start) }

/-! ## Dispatcher: the goroutines of `execute` -/

/-- Where a `worker` goroutine stands. -/
inductive WorkerPc where
  /-- started by the `go` statement, `j.execute` not yet called -/
  | ready
  /-- the call `j.execute(cfg, kubeClient, ctx)` has returned `err` -/
  | executed (err : GoError)
  /-- the status has been sent on `statusChan`; the deferred `wg.Done()` is pending -/
  | sent
  /-- the deferred `wg.Done()` has run and the goroutine is over -/
  | done
deriving DecidableEq

structure Worker where
  j : job
  pc : WorkerPc

/-- Where the goroutine that runs `execute` itself stands. -/
inductive MainPc where
  /-- in the loop `for _, job := range jobs` -/
  | spawning
  /-- in the loop `for status := range statusChan` -/
  | draining
  /-- after `duration += t.Sub(start)` -/
  | returned
deriving DecidableEq

/-- Where the goroutine `go func() { wg.Wait(); close(statusChan) }()` stands. -/
inductive CloserPc where
  | absent
  /-- blocked in, or about to call, `wg.Wait()` -/
  | waiting
  /-- `wg.Wait()` has returned -/
  | woken
  /-- `close(statusChan)` has run -/
  | exited
deriving DecidableEq

/-- A moment of one call of `execute`. -/
structure Exec where
  /-- the jobs the `range` loop has still to visit -/
  pending : List job
  /-- the workers started so far, in the order of their `go` statements -/
  workers : List Worker
  main : MainPc
  closer : CloserPc
  /-- the buffer of `statusChan`, oldest first -/
  statusChan : List jobStatus
  chanCap : Nat
  chanClosed : Bool
  /-- the counter of the `sync.WaitGroup` -/
  wg : Nat
  start : Int
  /-- the package-level variables -/
  st : State

/-- The atomic steps of the goroutines. -/
inductive Action where
  /-- main: one iteration of the `range jobs` loop, `go worker(...)` -/
  | spawn
  /-- main: leave the loop and start the closing goroutine -/
  | spawnCloser
  /-- worker `i`: call `j.execute` -/
  | exec (i : Nat)
  /-- worker `i`: build the status and send it -/
  | send (i : Nat)
  /-- worker `i`: the deferred `wg.Done()` -/
  | done (i : Nat)
  /-- closer: `wg.Wait()` returns -/
  | wake
  /-- closer: `close(statusChan)` -/
  | close
  /-- main: receive one status and run the loop body on it -/
  | recv
  /-- main: leave the `range statusChan` loop, read the clock, add to `duration` -/
  | finish
deriving DecidableEq

/-- The state of `execute` once `start`, `jobs`, `statusChan` and `wg.Add`
are done and no goroutine has been started. -/
def initExec (start : Int) (c : String) (executionMap : JobMap) (s : State) : Exec :=
  let jobs := mapIndex executionMap c
  { pending := jobs, workers := [], main := .spawning, closer := .absent,
    statusChan := [], chanCap := jobs.length, chanClosed := false,
    wg := jobs.length, start := start, st := s }

/-- One atomic step; `none` when the step is not enabled (its goroutine is
elsewhere, or blocked) or when Go would panic there (send on or close of a
closed channel, negative wait group counter). `t` is the reading of
`time.Now()` at the end of `execute`. -/
def step (render : jobStatus → String) (ctx : Context) (t : Int) (a : Action) (e : Exec) :
    Option Exec :=
  match a with
  | .spawn =>
    match e.main, e.pending with
    | .spawning, j :: rest =>
      some { e with pending := rest, workers := e.workers ++ [{ j := j, pc := .ready }] }
    | _, _ => none
  | .spawnCloser =>
    match e.main, e.pending with
    | .spawning, [] => some { e with main := .draining, closer := .waiting }
    | _, _ => none
  | .exec i =>
    match e.workers[i]? with
    | some ⟨j, .ready⟩ =>
      some { e with workers := e.workers.set i ⟨j, .executed (j.execute e.st.cfg e.st.kubeClient ctx)⟩ }
    | _ => none
  | .send i =>
    match e.workers[i]? with
    | some ⟨j, .executed err⟩ =>
      if e.chanClosed = true then none
      else if e.statusChan.length < e.chanCap then
        some { e with statusChan := e.statusChan ++ [publish j err],
                      workers := e.workers.set i ⟨j, .sent⟩ }
      else none
    | _ => none
  | .done i =>
    match e.workers[i]? with
    | some ⟨j, .sent⟩ =>
      if 0 < e.wg then some { e with wg := e.wg - 1, workers := e.workers.set i ⟨j, .done⟩ }
      else none
    | _ => none
  | .wake =>
    match e.closer with
    | .waiting => if e.wg = 0 then some { e with closer := .woken } else none
    | _ => none
  | .close =>
    match e.closer with
    | .woken => if e.chanClosed = true then none
                else some { e with chanClosed := true, closer := .exited }
    | _ => none
  | .recv =>
    match e.main, e.statusChan with
    | .draining, status :: rest =>
      some { e with statusChan := rest, st := loopBody render e.st status }
    | _, _ => none
  | .finish =>
    match e.main, e.statusChan with
    | .draining, [] =>
      if e.chanClosed = true then
        some { e with main := .returned, st := addElapsed e.start t e.st }
      else none
    | _, _ => none

/-- A schedule: the steps of the goroutines in the order they happen. -/
def runSchedule (render : jobStatus → String) (ctx : Context) (t : Int) :
    List Action → Exec → Option Exec
  | [], e => some e
  | a :: rest, e => (step render ctx t a e).bind (runSchedule render ctx t rest)

/-- One call `execute(ctx, c, executionMap)` under the schedule `sched`, the
clock reading `start` on entry and `t` at the end: the package variables when
the call returns, `none` when the schedule is not a complete run. -/
def execute (render : jobStatus → String) (sched : List Action) (start t : Int)
    (ctx : Context) (c : String) (executionMap : JobMap) (s : State) : Option State :=
  match runSchedule render ctx t sched (initExec start c executionMap s) with
  | some e => if e.main = .returned then some e.st else none
  | none => none

def ExecutePre (render : jobStatus → String) (sched : List Action) (start t : Int)
    (ctx : Context) (c : String) (s : State) : Option State :=
  execute render sched start t ctx c s.preJobMap s

def ExecutePost (render : jobStatus → String) (sched : List Action) (start t : Int)
    (ctx : Context) (c : String) (s : State) : Option State :=
  execute render sched start t ctx c s.postJobMap s

/-- The schedule in which every goroutine runs to its end as soon as it is
started: for `n` jobs. -/
def eagerSchedule (n : Nat) : List Action :=
  List.replicate n .spawn ++ [.spawnCloser]
    ++ (List.range n).flatMap (fun i => [.exec i, .send i, .done i])
    ++ [.wake, .close] ++ List.replicate n .recv ++ [.finish]

/-! ## Jobs of the test suite -/

def sampleOne : job :=
  { execute := fun _ _ _ => none, when := ("componentOne", Pre), identify := "sampleOne" }
def sampleTwo : job :=
  { execute := fun _ _ _ => none, when := ("componentOne", Pre), identify := "sampleTwo" }
def sampleThree : job :=
  { execute := fun _ _ _ => none, when := ("componentTwo", Pre), identify := "sampleThree" }
def sampleFour : job :=
  { execute := fun _ _ _ => none, when := ("componentThree", Post), identify := "sampleFour" }
def sampleFive : job :=
  { execute := fun _ _ _ => some "JobFiveError", when := ("componentFour", Post),
    identify := "sampleFive" }

/-- The map built by `initJobMap` of the test suite. -/
def initJobMap : JobMap :=
  mapStore (mapStore (mapStore (mapStore emptyMap "componentOne" [sampleOne, sampleTwo])
    "componentTwo" [sampleThree]) "componentThree" [sampleFour]) "componentFour" [sampleFive]

/-- A stand-in for the verb `%v` in examples: the name of the job alone (the
`fmt` package prints all three fields, the error as an address). -/
def renderName (st : jobStatus) : String := st.job

/-- The package variables of the test suite once the jobs of `initJobMap` are
registered as pre-jobs. -/
def testState : State := { initState with preJobMap := initJobMap }

/-- A bucket with one passing and one failing job, and the one of the test
`job error should be catched and user be informed`. -/
def mixedJobMap : JobMap :=
  mapStore (mapStore emptyMap "componentFour" [sampleFive]) "mixed" [sampleOne, sampleFive]

/-- The package variables of the tests `preMap should be reset` and `postMap should be
reset`, both maps filled. -/
def filledState : State :=
  { initState with
    preJobMap := mapStore (mapStore emptyMap "componentOne" [sampleOne, sampleTwo])
      "componentTwo" [sampleThree],
    postJobMap := mapStore (mapStore emptyMap "componentOne" [sampleOne, sampleTwo])
      "componentTwo" [sampleThree] }

/-- A job that declares a phase outside `Pre` and `Post`. -/
def sampleLate : job :=
  { execute := fun _ _ _ => none, when := ("componentOne", 2), identify := "sampleLate" }

/-! ## Quantities used to reason about runs -/

/-- Has the worker sent its status already? -/
def WorkerPc.isOut : WorkerPc → Bool
  | .sent => true
  | .done => true
  | _ => false

/-- The statuses sent so far by the workers `ws`, in the order of the workers. -/
def published (cfg : Config) (kubeClient : KubeClient) (ctx : Context) (ws : List Worker) :
    List jobStatus :=
  (ws.filter (fun w => w.pc.isOut)).map (fun w => worker cfg kubeClient ctx w.j)

/-- How many of the workers `ws` are over. -/
def doneCount (ws : List Worker) : Nat := ws.countP (fun w => decide (w.pc = .done))

/-- The steps a worker has still to take, counting the receipt of its status. -/
def WorkerPc.weight : WorkerPc → Nat
  | .ready => 4
  | .executed _ => 3
  | .sent => 1
  | .done => 0

def MainPc.weight : MainPc → Nat
  | .spawning => 4
  | .draining => 1
  | .returned => 0

def CloserPc.weight : CloserPc → Nat
  | .absent => 0
  | .waiting => 2
  | .woken => 1
  | .exited => 0

/-- The number of steps that remain before `execute` returns. -/
def stepsLeft (e : Exec) : Nat :=
  5 * e.pending.length + (e.workers.map (fun w => w.pc.weight)).sum + e.statusChan.length
    + e.main.weight + e.closer.weight

/-- What holds at every moment of a call of `execute` that started from the
package variables `s0` with the bucket `jobs` and the clock reading `start`. -/
structure Inv (render : jobStatus → String) (ctx : Context) (t : Int) (s0 : State)
    (jobs : List job) (start : Int) (e : Exec) : Prop where
  jobs_eq : e.workers.map (fun w => w.j) ++ e.pending = jobs
  cap_eq : e.chanCap = jobs.length
  start_eq : e.start = start
  env_eq : e.st.cfg = s0.cfg ∧ e.st.kubeClient = s0.kubeClient
  main_spawn : e.main = .spawning ↔ e.closer = .absent
  pending_nil : e.main ≠ .spawning → e.pending = []
  closed_iff : e.chanClosed = true ↔ e.closer = .exited
  woken_wg : e.closer = .woken ∨ e.closer = .exited → e.wg = 0
  wg_eq : e.wg + doneCount e.workers = jobs.length
  exec_ok : ∀ w ∈ e.workers, ∀ err, w.pc = .executed err →
    err = w.j.execute s0.cfg s0.kubeClient ctx
  returned_ok : e.main = .returned → e.statusChan = [] ∧ e.chanClosed = true
  consumed : ∃ arrived : List jobStatus,
    (arrived ++ e.statusChan).Perm (published s0.cfg s0.kubeClient ctx e.workers) ∧
    e.st = if e.main = .returned then addElapsed start t (arrived.foldl (loopBody render) s0)
           else arrived.foldl (loopBody render) s0

/-- The lines one received status adds to the log. -/
def statusLines (render : jobStatus → String) (status : jobStatus) : List String :=
  ("Job Status: " ++ render status) ::
    (if status = emptyJob then []
     else if status.status = true then ["Following job executed: " ++ status.job]
     else ["Following job failed while execution: `" ++ status.job ++ "` with error: "
        ++ errText status.err])

/-- The statuses the workers `ws` have still to send. -/
def unsent (cfg : Config) (kubeClient : KubeClient) (ctx : Context) (ws : List Worker) :
    List jobStatus :=
  (ws.filter (fun w => !w.pc.isOut)).map (fun w => worker cfg kubeClient ctx w.j)

/-- The statuses are received in the order `order`: what has been received and
what the channel holds make up `order`, and no worker has still to send. -/
def Fifo (render : jobStatus → String) (t : Int) (s0 : State) (start : Int)
    (order : List jobStatus) (e : Exec) : Prop :=
  e.main ≠ .spawning ∧ (∀ w ∈ e.workers, w.pc.isOut = true) ∧
  ∃ arrived : List jobStatus, arrived ++ e.statusChan = order ∧
    e.st = if e.main = .returned then addElapsed start t (arrived.foldl (loopBody render) s0)
           else arrived.foldl (loopBody render) s0

/-- The stage of a worker as a number. -/
def WorkerPc.code : WorkerPc → Nat
  | .ready => 0
  | .executed _ => 1
  | .sent => 2
  | .done => 3

/-- How far worker `i` has got: 0 when it is not started or has not yet called
`j.execute`, 1 once `j.execute` has returned, 2 once the status is sent, 3 once
`wg.Done()` has run. -/
def stage (e : Exec) (i : Nat) : Nat :=
  match e.workers[i]? with
  | some w => w.pc.code
  | none => 0

/-- How many of the workers `ws` have sent their status. -/
def outCount (ws : List Worker) : Nat := ws.countP (fun w => w.pc.isOut)

/-! ## Sequences of calls into the package -/

/-- One call of a function of the package. -/
inductive Call where
  | register (j : job)
  | SetConfig (config : Config)
  | SetKubeClient (kc : KubeClient)
  | SetLogger (logClient : List String)
  | ExecutePre (sched : List Action) (start t : Int) (ctx : Context) (c : String)
  | ExecutePost (sched : List Action) (start t : Int) (ctx : Context) (c : String)
  | GetDuration
  | resetDuration
  | resetMap (exec : executionTime)
  | resetFinishedJobsMap

/-- The package variables after one call (return values dropped). -/
def Call.run (render : jobStatus → String) : Call → State → Option State
  | .register j, s => some (jobmanager.register j s).2
  | .SetConfig config, s => some (jobmanager.SetConfig config s)
  | .SetKubeClient kc, s => some (jobmanager.SetKubeClient kc s)
  | .SetLogger logClient, s => some (jobmanager.SetLogger logClient s)
  | .ExecutePre sched start t ctx c, s => jobmanager.ExecutePre render sched start t ctx c s
  | .ExecutePost sched start t ctx c, s => jobmanager.ExecutePost render sched start t ctx c s
  | .GetDuration, s => some (jobmanager.GetDuration s).2
  | .resetDuration, s => some (jobmanager.resetDuration s)
  | .resetMap exec, s => some (jobmanager.resetMap exec s)
  | .resetFinishedJobsMap, s => some (jobmanager.resetFinishedJobsMap s)

/-- The package variables after a sequence of calls, one after the other. -/
def runCalls (render : jobStatus → String) : List Call → State → Option State
  | [], s => some s
  | k :: rest, s => (k.run render s).bind (runCalls render rest)

/-- The time `t.Sub(start)` a call adds to `duration`: zero unless it is a dispatch. -/
def Call.elapsed : Call → Int
  | .ExecutePre _ start t _ _ => timeSub t start
  | .ExecutePost _ start t _ _ => timeSub t start
  | _ => 0

/-- Does the call clear the counter `duration`? -/
def Call.clearsDuration : Call → Bool
  | .GetDuration => true
  | .resetDuration => true
  | _ => false

/-- Every job stored in a bucket declares that bucket. -/
def RegistryOk (s : State) : Prop :=
  (∀ c j, j ∈ mapIndex s.preJobMap c → j.when = (c, Pre)) ∧
  (∀ c j, j ∈ mapIndex s.postJobMap c → j.when = (c, Post))

/-! ## Lemmas on lists of workers -/

theorem getElem?_split {α : Type} {ws : List α} {i : Nat} {w : α} (h : ws[i]? = some w) :
    ∃ l1 l2, ws = l1 ++ w :: l2 ∧ l1.length = i ∧ ∀ w2, ws.set i w2 = l1 ++ w2 :: l2 := by
  induction ws generalizing i with
  | nil => simp at h
  | cons a ws ih =>
    cases i with
    | zero =>
      simp at h
      subst h
      exact ⟨[], ws, rfl, rfl, fun _ => rfl⟩
    | succ i =>
      simp at h
      obtain ⟨l1, l2, h1, h2, h3⟩ := ih h
      refine ⟨a :: l1, l2, by simp [h1], by simp [h2], fun w2 => ?_⟩
      simp [h3 w2]

theorem published_length_le (cfg : Config) (kc : KubeClient) (ctx : Context) (ws : List Worker) :
    (published cfg kc ctx ws).length ≤ ws.length := by
  simp [published, List.length_filter_le]

theorem doneCount_le (ws : List Worker) : doneCount ws ≤ ws.length := by
  simp [doneCount, List.countP_le_length]

/-! ## The invariant is kept by every step -/

theorem loopBody_frame (render : jobStatus → String) (s : State) (st : jobStatus) :
    (loopBody render s st).cfg = s.cfg ∧ (loopBody render s st).kubeClient = s.kubeClient ∧
    (loopBody render s st).preJobMap = s.preJobMap ∧ (loopBody render s st).postJobMap = s.postJobMap ∧
    (loopBody render s st).duration = s.duration := by
  unfold loopBody Infof
  split_ifs <;> simp

theorem published_split (cfg : Config) (kc : KubeClient) (ctx : Context) (l1 l2 : List Worker)
    (w : Worker) :
    published cfg kc ctx (l1 ++ w :: l2) =
      published cfg kc ctx l1 ++ (if w.pc.isOut = true then [worker cfg kc ctx w.j] else [])
        ++ published cfg kc ctx l2 := by
  unfold published
  by_cases h : w.pc.isOut = true <;> simp [List.filter_cons, h]

theorem doneCount_split (l1 l2 : List Worker) (w : Worker) :
    doneCount (l1 ++ w :: l2) =
      doneCount l1 + (if w.pc = .done then 1 else 0) + doneCount l2 := by
  unfold doneCount
  by_cases h : w.pc = .done <;> simp [List.countP_cons, h]
  omega

theorem Inv_step {render : jobStatus → String} {ctx : Context} {t : Int} {s0 : State}
    {jobs : List job} {start : Int} {e e2 : Exec} (a : Action)
    (hI : Inv render ctx t s0 jobs start e) (h : step render ctx t a e = some e2) :
    Inv render ctx t s0 jobs start e2 := by
  obtain ⟨pending, workers, main, closer, buf, cap, closed, wg, start1, st⟩ := e
  obtain ⟨h1, h2, h3, h4, h5, h6, h7, h8, h9, h10, h11, arrived, h12, h13⟩ := hI
  simp only at h1 h2 h3 h4 h5 h6 h7 h8 h9 h10 h11 h12 h13
  cases a with
  | spawn =>
    cases main <;> cases pending <;> simp [step] at h
    subst h
    rename_i j rest
    refine ⟨?_, h2, h3, h4, ?_, ?_, h7, h8, ?_, ?_, ?_, arrived, ?_, ?_⟩
    · simpa using h1
    · simpa using h5
    · simp
    · have := doneCount_split workers [] ⟨j, .ready⟩
      simp only [doneCount, List.countP_nil] at this ⊢
      simp only [doneCount] at h9
      rw [this]; simpa using h9
    · intro w hw err he
      simp only [List.mem_append, List.mem_singleton] at hw
      rcases hw with hw | hw
      · exact h10 w hw err he
      · subst hw; simp at he
    · simp
    · have := published_split s0.cfg s0.kubeClient ctx workers [] ⟨j, .ready⟩
      simp only [WorkerPc.isOut, published, List.filter_nil, List.map_nil] at this ⊢
      rw [this]; simpa [published] using h12
    · simpa using h13
  | spawnCloser =>
    cases main <;> cases pending <;> simp [step] at h
    subst h
    refine ⟨h1, h2, h3, h4, ?_, ?_, ?_, ?_, h9, h10, ?_, arrived, h12, ?_⟩
    · simp
    · simp
    · simp only [reduceCtorEq, iff_false]
      intro hc
      have := h7.mp hc
      simp [h5.mp rfl] at this
    · simp
    · simp
    · simpa using h13
  | exec i =>
    simp only [step] at h
    split at h
    · rename_i j hw
      obtain ⟨l1, l2, hws, -, hset⟩ := getElem?_split hw
      simp only [Option.some.injEq] at h
      subst h
      simp only [hset]
      subst hws
      refine ⟨?_, h2, h3, h4, h5, h6, h7, h8, ?_, ?_, h11, arrived, ?_, h13⟩
      · simpa using h1
      · rw [doneCount_split] at h9 ⊢
        simpa using h9
      · intro w hw err he
        simp only [List.mem_append, List.mem_cons] at hw
        rcases hw with hw | hw | hw
        · exact h10 w (by simp [hw]) err he
        · subst hw
          simp only [WorkerPc.executed.injEq] at he
          rw [← he, h4.1, h4.2]
        · exact h10 w (by simp [hw]) err he
      · rw [published_split] at h12 ⊢
        simpa [WorkerPc.isOut] using h12
    · simp at h
  | send i =>
    simp only [step] at h
    split at h
    · rename_i j err hw
      obtain ⟨l1, l2, hws, -, hset⟩ := getElem?_split hw
      split_ifs at h with hc hl
      simp only [Option.some.injEq] at h
      subst h
      simp only [hset]
      subst hws
      refine ⟨?_, h2, h3, h4, h5, h6, h7, h8, ?_, ?_, ?_, arrived, ?_, h13⟩
      · simpa using h1
      · rw [doneCount_split] at h9 ⊢
        simpa using h9
      · intro w hw err he
        simp only [List.mem_append, List.mem_cons] at hw
        rcases hw with hw | hw | hw
        · exact h10 w (by simp [hw]) err he
        · subst hw
          simp at he
        · exact h10 w (by simp [hw]) err he
      · intro hm
        have := (h11 hm).2
        exact absurd this hc
      · have he := h10 ⟨j, .executed err⟩ (by simp) err rfl
        rw [published_split] at h12 ⊢
        simp only [WorkerPc.isOut, Bool.false_eq_true, if_false, List.append_nil,
          if_true] at h12 ⊢
        simp only at he
        subst he
        simp only [worker]
        rw [← List.append_assoc]
        refine (List.perm_append_comm.trans ?_)
        rw [List.singleton_append, List.append_assoc, List.singleton_append]
        refine List.Perm.trans ?_ List.perm_middle.symm
        exact List.Perm.cons _ h12
    · simp at h
  | done i =>
    simp only [step] at h
    split at h
    · rename_i j hw
      obtain ⟨l1, l2, hws, -, hset⟩ := getElem?_split hw
      split_ifs at h with hc
      simp only [Option.some.injEq] at h
      subst h
      simp only [hset]
      subst hws
      refine ⟨?_, h2, h3, h4, h5, h6, h7, ?_, ?_, ?_, h11, arrived, ?_, h13⟩
      · simpa using h1
      · intro hcl
        have := h8 hcl
        omega
      · rw [doneCount_split] at h9 ⊢
        simp only [reduceCtorEq, if_false, if_true] at h9 ⊢
        omega
      · intro w hw err he
        simp only [List.mem_append, List.mem_cons] at hw
        rcases hw with hw | hw | hw
        · exact h10 w (by simp [hw]) err he
        · subst hw
          simp at he
        · exact h10 w (by simp [hw]) err he
      · rw [published_split] at h12 ⊢
        simpa [WorkerPc.isOut] using h12
    · simp at h
  | wake =>
    cases closer <;> simp [step] at h
    obtain ⟨hw, h⟩ := h
    subst h
    refine ⟨h1, h2, h3, h4, ?_, h6, ?_, ?_, h9, h10, ?_, arrived, h12, h13⟩
    · simpa using h5
    · simpa using h7
    · intro _; exact hw
    · intro hm
      have := (h11 hm).2
      simp [h7] at this
  | close =>
    cases closer <;> simp [step] at h
    obtain ⟨hc, h⟩ := h
    subst h
    refine ⟨h1, h2, h3, h4, ?_, h6, ?_, ?_, h9, h10, ?_, arrived, h12, h13⟩
    · simpa using h5
    · simp
    · intro _; exact h8 (Or.inl rfl)
    · intro hm
      have := (h11 hm).2
      simp [hc] at this
  | recv =>
    cases main <;> cases buf <;> simp [step] at h
    subst h
    rename_i status rest
    refine ⟨h1, h2, h3, ?_, h5, h6, h7, h8, h9, h10, ?_, arrived ++ [status], ?_, ?_⟩
    · have := loopBody_frame render st status
      simp only [this.1, this.2.1]
      exact h4
    · simp
    · simpa using h12
    · simp only [reduceCtorEq, if_false] at h13 ⊢
      simp [List.foldl_append, h13]
  | finish =>
    cases main <;> cases buf <;> simp [step] at h
    obtain ⟨hc, h⟩ := h
    subst h
    refine ⟨h1, h2, h3, ?_, ?_, ?_, h7, h8, h9, h10, ?_, arrived, h12, ?_⟩
    · simpa [addElapsed] using h4
    · simpa using h5
    · intro _; exact h6 (by simp)
    · intro _; exact ⟨rfl, hc⟩
    · simp only [reduceCtorEq, if_false, if_true] at h13 ⊢
      rw [h13, h3]

/-! ## Runs: invariant, number of steps -/

theorem Inv_init (render : jobStatus → String) (ctx : Context) (t start : Int) (c : String)
    (m : JobMap) (s : State) :
    Inv render ctx t s (mapIndex m c) start (initExec start c m s) := by
  refine ⟨?_, rfl, rfl, ⟨rfl, rfl⟩, ?_, ?_, ?_, ?_, ?_, ?_, ?_, [], ?_, ?_⟩ <;>
    simp [initExec, doneCount, published]

theorem Inv_run {render : jobStatus → String} {ctx : Context} {t : Int} {s0 : State}
    {jobs : List job} {start : Int} (sched : List Action) {e e2 : Exec}
    (hI : Inv render ctx t s0 jobs start e) (h : runSchedule render ctx t sched e = some e2) :
    Inv render ctx t s0 jobs start e2 := by
  induction sched generalizing e with
  | nil =>
    simp only [runSchedule, Option.some.injEq] at h
    exact h ▸ hI
  | cons a rest ih =>
    simp only [runSchedule, Option.bind_eq_some] at h
    obtain ⟨e1, h1, h2⟩ := h
    exact ih (Inv_step a hI h1) h2

theorem weight_split (l1 l2 : List Worker) (w : Worker) :
    ((l1 ++ w :: l2).map (fun w => w.pc.weight)).sum =
      (l1.map (fun w => w.pc.weight)).sum + w.pc.weight + (l2.map (fun w => w.pc.weight)).sum := by
  simp [List.sum_append, List.sum_cons]
  omega

theorem stepsLeft_step {render : jobStatus → String} {ctx : Context} {t : Int} {s0 : State}
    {jobs : List job} {start : Int} {e e2 : Exec} (a : Action)
    (hI : Inv render ctx t s0 jobs start e) (h : step render ctx t a e = some e2) :
    stepsLeft e = stepsLeft e2 + 1 := by
  have hms := hI.main_spawn
  obtain ⟨pending, workers, main, closer, buf, cap, closed, wg, start1, st⟩ := e
  simp only at hms
  cases a with
  | spawn =>
    cases main <;> cases pending <;> simp [step] at h
    subst h
    simp [stepsLeft, WorkerPc.weight, List.sum_append]
    omega
  | spawnCloser =>
    cases main <;> cases pending <;> simp [step] at h
    subst h
    simp [stepsLeft, MainPc.weight, CloserPc.weight, hms.mp rfl]
  | exec i =>
    simp only [step] at h
    split at h
    · rename_i j hw
      obtain ⟨l1, l2, hws, -, hset⟩ := getElem?_split hw
      simp only [Option.some.injEq] at h
      subst h
      simp only [stepsLeft, hset]
      subst hws
      rw [weight_split, weight_split]
      simp only [WorkerPc.weight]
      omega
    · simp at h
  | send i =>
    simp only [step] at h
    split at h
    · rename_i j err hw
      obtain ⟨l1, l2, hws, -, hset⟩ := getElem?_split hw
      split_ifs at h with hc hl
      simp only [Option.some.injEq] at h
      subst h
      simp only [stepsLeft, hset]
      subst hws
      rw [weight_split, weight_split]
      simp only [WorkerPc.weight, List.length_append, List.length_singleton]
      omega
    · simp at h
  | done i =>
    simp only [step] at h
    split at h
    · rename_i j hw
      obtain ⟨l1, l2, hws, -, hset⟩ := getElem?_split hw
      split_ifs at h with hc
      simp only [Option.some.injEq] at h
      subst h
      simp only [stepsLeft, hset]
      subst hws
      rw [weight_split, weight_split]
      simp only [WorkerPc.weight]
      omega
    · simp at h
  | wake =>
    cases closer <;> simp [step] at h
    obtain ⟨hw, h⟩ := h
    subst h
    simp [stepsLeft, CloserPc.weight]
  | close =>
    cases closer <;> simp [step] at h
    obtain ⟨hc, h⟩ := h
    subst h
    simp [stepsLeft, CloserPc.weight]
  | recv =>
    cases main <;> cases buf <;> simp [step] at h
    subst h
    simp [stepsLeft]
    omega
  | finish =>
    cases main <;> cases buf <;> simp [step] at h
    obtain ⟨hc, h⟩ := h
    subst h
    simp [stepsLeft, MainPc.weight]
    omega

theorem stepsLeft_run {render : jobStatus → String} {ctx : Context} {t : Int} {s0 : State}
    {jobs : List job} {start : Int} (sched : List Action) {e e2 : Exec}
    (hI : Inv render ctx t s0 jobs start e) (h : runSchedule render ctx t sched e = some e2) :
    stepsLeft e = stepsLeft e2 + sched.length := by
  induction sched generalizing e with
  | nil =>
    simp only [runSchedule, Option.some.injEq] at h
    simp [h]
  | cons a rest ih =>
    simp only [runSchedule, Option.bind_eq_some] at h
    obtain ⟨e1, h1, h2⟩ := h
    have := stepsLeft_step a hI h1
    have := ih (Inv_step a hI h1) h2
    simp only [List.length_cons]
    omega

/-! ## No goroutine is stuck -/

theorem published_length_lt (cfg : Config) (kc : KubeClient) (ctx : Context) {ws : List Worker}
    {w : Worker} (hw : w ∈ ws) (ho : w.pc.isOut = false) :
    (published cfg kc ctx ws).length < ws.length := by
  have hle := published_length_le cfg kc ctx ws
  rcases Nat.lt_or_ge (published cfg kc ctx ws).length ws.length with h | h
  · exact h
  · have heq : (ws.filter (fun w => w.pc.isOut)).length = ws.length := by
      simp only [published, List.length_map] at h hle
      omega
    rw [← List.countP_eq_length_filter, List.countP_eq_length] at heq
    have := heq w hw
    simp [ho] at this

theorem doneCount_lt {ws : List Worker} {w : Worker} (hw : w ∈ ws) (hd : w.pc ≠ .done) :
    doneCount ws < ws.length := by
  have hle := doneCount_le ws
  rcases Nat.lt_or_ge (doneCount ws) ws.length with h | h
  · exact h
  · have heq : doneCount ws = ws.length := by omega
    rw [doneCount, List.countP_eq_length] at heq
    have := heq w hw
    simp [hd] at this

theorem workers_length_le {render : jobStatus → String} {ctx : Context} {t : Int} {s0 : State}
    {jobs : List job} {start : Int} {e : Exec} (hI : Inv render ctx t s0 jobs start e) :
    e.workers.length ≤ jobs.length := by
  have := congrArg List.length hI.jobs_eq
  simp only [List.length_append, List.length_map] at this
  omega

/-- A worker that has its result can always send it: the channel is open and
its buffer has room. -/
theorem send_enabled {render : jobStatus → String} {ctx : Context} {t : Int} {s0 : State}
    {jobs : List job} {start : Int} {e : Exec} (hI : Inv render ctx t s0 jobs start e)
    {i : Nat} {j : job} {err : GoError} (hw : e.workers[i]? = some ⟨j, .executed err⟩) :
    e.chanClosed = false ∧ e.statusChan.length < e.chanCap := by
  have hmem : (⟨j, .executed err⟩ : Worker) ∈ e.workers := List.getElem?_mem hw
  have hlen := workers_length_le hI
  constructor
  · by_contra hc
    have hc2 : e.chanClosed = true := by simpa using hc
    have hwg := hI.woken_wg (Or.inr (hI.closed_iff.mp hc2))
    have := hI.wg_eq
    have := doneCount_lt hmem (by simp)
    omega
  · obtain ⟨arrived, hp, -⟩ := hI.consumed
    have := hp.length_eq
    have := published_length_lt s0.cfg s0.kubeClient ctx hmem rfl
    simp only [List.length_append] at *
    rw [hI.cap_eq]
    omega

/-- A worker that has sent its status can always run its deferred `wg.Done()`:
the counter is positive. -/
theorem done_enabled {render : jobStatus → String} {ctx : Context} {t : Int} {s0 : State}
    {jobs : List job} {start : Int} {e : Exec} (hI : Inv render ctx t s0 jobs start e)
    {i : Nat} {j : job} (hw : e.workers[i]? = some ⟨j, .sent⟩) : 0 < e.wg := by
  have hmem : (⟨j, .sent⟩ : Worker) ∈ e.workers := List.getElem?_mem hw
  have hlen := workers_length_le hI
  have := hI.wg_eq
  have := doneCount_lt hmem (by simp)
  omega

theorem all_done_or (ws : List Worker) :
    (∀ w ∈ ws, w.pc = .done) ∨ ∃ (i : Nat) (w : Worker), ws[i]? = some w ∧ w.pc ≠ .done := by
  by_cases h : ∀ w ∈ ws, w.pc = .done
  · exact Or.inl h
  · right
    push_neg at h
    obtain ⟨w, hw, hd⟩ := h
    obtain ⟨i, hi⟩ := List.getElem?_of_mem hw
    exact ⟨i, w, hi, hd⟩

theorem enabled_of {render : jobStatus → String} {ctx : Context} {t : Int} {e : Exec}
    (a : Action) (h : (step render ctx t a e).isSome = true) :
    ∃ a e2, step render ctx t a e = some e2 :=
  ⟨a, Option.isSome_iff_exists.mp h⟩

/-- No deadlock: as long as `execute` has not returned, some goroutine can
take a step. -/
theorem progress {render : jobStatus → String} {ctx : Context} {t : Int} {s0 : State}
    {jobs : List job} {start : Int} {e : Exec} (hI : Inv render ctx t s0 jobs start e)
    (hm : e.main ≠ .returned) : ∃ a e2, step render ctx t a e = some e2 := by
  rcases hmain : e.main with _ | _ | _
  · rcases hp : e.pending with _ | ⟨j, rest⟩
    · exact enabled_of (.spawnCloser) (by simp [step, hmain, hp])
    · exact enabled_of (.spawn) (by simp [step, hmain, hp])
  · rcases hb : e.statusChan with _ | ⟨status, rest⟩
    · by_cases hc : e.chanClosed = true
      · exact enabled_of (.finish) (by simp [step, hmain, hb, hc])
      · rcases all_done_or e.workers with hall | ⟨i, w, hw, hd⟩
        · have hcnt : doneCount e.workers = e.workers.length := by
            rw [doneCount, List.countP_eq_length]
            intro w hw
            simp [hall w hw]
          have hpn := hI.pending_nil (by simp [hmain])
          have hj := congrArg List.length hI.jobs_eq
          simp only [List.length_append, List.length_map, hpn, List.length_nil] at hj
          have hwg : e.wg = 0 := by
            have := hI.wg_eq
            omega
          rcases hcl : e.closer with _ | _ | _ | _
          · have := hI.main_spawn.mpr hcl
            simp [hmain] at this
          · exact enabled_of (.wake) (by simp [step, hcl, hwg])
          · exact enabled_of (.close) (by simp [step, hcl, hc])
          · exact absurd (hI.closed_iff.mpr hcl) hc
        · obtain ⟨j, pc⟩ := w
          cases pc with
          | ready => exact enabled_of (.exec i) (by simp [step, hw])
          | executed err =>
            have := send_enabled hI hw
            exact enabled_of (.send i) (by simp [step, hw, this.1, this.2])
          | sent =>
            have := done_enabled hI hw
            exact enabled_of (.done i) (by simp [step, hw, this])
          | done => simp at hd
    · exact enabled_of (.recv) (by simp [step, hmain, hb])
  · exact absurd hmain hm

/-- From every moment of a call, some schedule brings `execute` to its return. -/
theorem run_to_return {render : jobStatus → String} {ctx : Context} {t : Int} {s0 : State}
    {jobs : List job} {start : Int} (n : Nat) (e : Exec) (hn : stepsLeft e = n)
    (hI : Inv render ctx t s0 jobs start e) :
    ∃ sched e2, runSchedule render ctx t sched e = some e2 ∧ e2.main = .returned := by
  induction n generalizing e with
  | zero =>
    refine ⟨[], e, rfl, ?_⟩
    rcases hmain : e.main with _ | _ | _
    · simp [stepsLeft, hmain, MainPc.weight] at hn
    · simp [stepsLeft, hmain, MainPc.weight] at hn
    · rfl
  | succ n ih =>
    by_cases hm : e.main = .returned
    · exact ⟨[], e, rfl, hm⟩
    · obtain ⟨a, e1, h1⟩ := progress hI hm
      have := stepsLeft_step a hI h1
      obtain ⟨sched, e2, h2, h3⟩ := ih e1 (by omega) (Inv_step a hI h1)
      exact ⟨a :: sched, e2, by simp [runSchedule, h1, h2], h3⟩

/-! ## What a call of `execute` does -/

theorem loopBody_eq (render : jobStatus → String) (s : State) (status : jobStatus) :
    loopBody render s status =
      { s with log := s.log ++ statusLines render status,
               finishedJobs := s.finishedJobs ++ (if status = emptyJob then [] else [status]) } := by
  unfold loopBody Infof statusLines
  by_cases h1 : status = emptyJob
  · simp [h1]
  · by_cases h2 : status.status = true
    · simp [h1, h2]
    · simp [h1, h2]

theorem foldl_loopBody (render : jobStatus → String) (arrived : List jobStatus) (s : State) :
    arrived.foldl (loopBody render) s =
      { s with log := s.log ++ arrived.flatMap (statusLines render),
               finishedJobs := s.finishedJobs ++ arrived.filter (fun st => decide (st ≠ emptyJob)) } := by
  induction arrived generalizing s with
  | nil => simp
  | cons a rest ih =>
    rw [List.foldl_cons, ih, loopBody_eq]
    by_cases h : a = emptyJob <;> simp [h, List.flatMap_cons, List.filter_cons]

theorem worker_ne_emptyJob (cfg : Config) (kc : KubeClient) (ctx : Context) (j : job) :
    worker cfg kc ctx j ≠ emptyJob := by
  unfold worker publish emptyJob
  cases j.execute cfg kc ctx <;> simp

theorem published_all_done (cfg : Config) (kc : KubeClient) (ctx : Context) {ws : List Worker}
    (h : ∀ w ∈ ws, w.pc = .done) :
    published cfg kc ctx ws = (ws.map (fun w => w.j)).map (worker cfg kc ctx) := by
  unfold published
  rw [List.filter_eq_self.mpr]
  · simp
  · intro w hw
    simp [h w hw, WorkerPc.isOut]

/-- At the return of `execute` every job of the bucket has a worker that is
over, and the channel is closed and empty. -/
theorem Inv_returned {render : jobStatus → String} {ctx : Context} {t : Int} {s0 : State}
    {jobs : List job} {start : Int} {e : Exec} (hI : Inv render ctx t s0 jobs start e)
    (hm : e.main = .returned) :
    e.pending = [] ∧ e.workers.map (fun w => w.j) = jobs ∧ (∀ w ∈ e.workers, w.pc = .done) ∧
    e.statusChan = [] ∧ e.chanClosed = true ∧ e.closer = .exited ∧ e.wg = 0 := by
  have hp := hI.pending_nil (by simp [hm])
  have hj := hI.jobs_eq
  rw [hp, List.append_nil] at hj
  obtain ⟨hb, hc⟩ := hI.returned_ok hm
  have hcl := hI.closed_iff.mp hc
  have hwg := hI.woken_wg (Or.inr hcl)
  have hlen : e.workers.length = jobs.length := by rw [← hj]; simp
  have hcnt : doneCount e.workers = e.workers.length := by
    have := hI.wg_eq
    omega
  rw [doneCount, List.countP_eq_length] at hcnt
  exact ⟨hp, hj, fun w hw => by simpa using hcnt w hw, hb, hc, hcl, hwg⟩

/-- What a call of `execute` that returns has done to the package variables. -/
theorem execute_returns {render : jobStatus → String} {sched : List Action} {start t : Int}
    {ctx : Context} {c : String} {m : JobMap} {s s2 : State}
    (h : execute render sched start t ctx c m s = some s2) :
    ∃ arrived : List jobStatus,
      arrived.Perm ((mapIndex m c).map (worker s.cfg s.kubeClient ctx)) ∧
      s2 = addElapsed start t (arrived.foldl (loopBody render) s) := by
  unfold execute at h
  split at h
  · rename_i e he
    split_ifs at h with hm
    simp only [Option.some.injEq] at h
    have hI := Inv_run sched (Inv_init render ctx t start c m s) he
    obtain ⟨-, hj, hd, hb, -, -, -⟩ := Inv_returned hI hm
    obtain ⟨arrived, hp, hst⟩ := hI.consumed
    rw [hb, List.append_nil, published_all_done _ _ _ hd, hj] at hp
    rw [if_pos hm] at hst
    exact ⟨arrived, hp, by rw [← h, hst]⟩
  · simp at h

/-- A call of `execute` can always run to its return. -/
theorem execute_total (render : jobStatus → String) (start t : Int) (ctx : Context)
    (c : String) (m : JobMap) (s : State) :
    ∃ sched s2, execute render sched start t ctx c m s = some s2 := by
  obtain ⟨sched, e2, h1, h2⟩ :=
    run_to_return _ _ rfl (Inv_init render ctx t start c m s)
  exact ⟨sched, e2.st, by simp [execute, h1, h2]⟩

theorem filter_ne_emptyJob {arrived : List jobStatus} {cfg : Config} {kc : KubeClient}
    {ctx : Context} {jobs : List job} (hp : arrived.Perm (jobs.map (worker cfg kc ctx))) :
    arrived.filter (fun st => decide (st ≠ emptyJob)) = arrived := by
  rw [List.filter_eq_self]
  intro st hst
  have := (hp.mem_iff).mp hst
  simp only [List.mem_map] at this
  obtain ⟨j, -, rfl⟩ := this
  simpa using worker_ne_emptyJob cfg kc ctx j

/-! ## Every order of arrival happens -/

theorem runSchedule_append (render : jobStatus → String) (ctx : Context) (t : Int)
    (s1 s2 : List Action) (e : Exec) :
    runSchedule render ctx t (s1 ++ s2) e =
      (runSchedule render ctx t s1 e).bind (runSchedule render ctx t s2) := by
  induction s1 generalizing e with
  | nil => simp [runSchedule]
  | cons a rest ih =>
    simp only [List.cons_append, runSchedule]
    cases step render ctx t a e with
    | none => simp
    | some e1 => simp [ih]

theorem unsent_split (cfg : Config) (kc : KubeClient) (ctx : Context) (l1 l2 : List Worker)
    (w : Worker) :
    unsent cfg kc ctx (l1 ++ w :: l2) =
      unsent cfg kc ctx l1 ++ (if w.pc.isOut = true then [] else [worker cfg kc ctx w.j])
        ++ unsent cfg kc ctx l2 := by
  unfold unsent
  by_cases h : w.pc.isOut = true <;> simp [List.filter_cons, h]

/-- The `range jobs` loop can run to its end before any other goroutine moves. -/
theorem spawn_all (render : jobStatus → String) (ctx : Context) (t : Int)
    (pending : List job) (e : Exec) (hp : e.pending = pending) (hm : e.main = .spawning) :
    ∃ sched e2, runSchedule render ctx t sched e = some e2 ∧ e2.main = .draining ∧
      e2.workers = e.workers ++ pending.map (fun j => ⟨j, .ready⟩) ∧
      e2.statusChan = e.statusChan ∧ e2.st = e.st := by
  induction pending generalizing e with
  | nil =>
    refine ⟨[.spawnCloser], { e with main := .draining, closer := .waiting }, ?_, rfl, ?_, rfl, rfl⟩
    · simp [runSchedule, step, hm, hp]
    · simp
  | cons j rest ih =>
    obtain ⟨sched, e2, h1, h2, h3, h4, h5⟩ :=
      ih { e with pending := rest, workers := e.workers ++ [{ j := j, pc := .ready }],
                  main := .spawning } rfl rfl
    refine ⟨.spawn :: sched, e2, ?_, h2, ?_, h4, h5⟩
    · simp [runSchedule, step, hm, hp, h1]
    · simp [h3]

/-- The workers can send their statuses in any order. -/
theorem send_in_order {render : jobStatus → String} {ctx : Context} {t : Int} {s0 : State}
    {jobs : List job} {start : Int} (todo : List jobStatus) (e : Exec)
    (hI : Inv render ctx t s0 jobs start e) (hm : e.main = .draining)
    (hp : todo.Perm (unsent s0.cfg s0.kubeClient ctx e.workers)) :
    ∃ sched e2, runSchedule render ctx t sched e = some e2 ∧ e2.main = .draining ∧
      (∀ w ∈ e2.workers, w.pc.isOut = true) ∧
      e2.statusChan = e.statusChan ++ todo ∧ e2.st = e.st := by
  induction todo generalizing e with
  | nil =>
    refine ⟨[], e, rfl, hm, ?_, by simp, rfl⟩
    have h0 := hp.symm.eq_nil
    simp only [unsent, List.map_eq_nil_iff, List.filter_eq_nil_iff] at h0
    intro w hw
    simpa using h0 w hw
  | cons x rest ih =>
    have hx : x ∈ unsent s0.cfg s0.kubeClient ctx e.workers := hp.mem_iff.mp (by simp)
    simp only [unsent, List.mem_map, List.mem_filter] at hx
    obtain ⟨w, ⟨hw, hout⟩, hwx⟩ := hx
    obtain ⟨i, hi⟩ := List.getElem?_of_mem hw
    -- first bring worker `i` to the point where it has its result
    have hexec : ∃ pre e1, runSchedule render ctx t pre e = some e1 ∧ e1.main = .draining ∧
        e1.statusChan = e.statusChan ∧ e1.st = e.st ∧
        unsent s0.cfg s0.kubeClient ctx e1.workers = unsent s0.cfg s0.kubeClient ctx e.workers ∧
        ∃ err, e1.workers[i]? = some ⟨w.j, .executed err⟩ := by
      obtain ⟨j, pc⟩ := w
      cases pc with
      | ready =>
        obtain ⟨l1, l2, hws, hl, hset⟩ := getElem?_split hi
        refine ⟨[.exec i],
          { e with workers := e.workers.set i ⟨j, .executed (j.execute e.st.cfg e.st.kubeClient ctx)⟩ },
          by simp [runSchedule, step, hi], hm, rfl, rfl, ?_, ?_⟩
        · simp only [hset]
          rw [hws, unsent_split, unsent_split]
          simp [WorkerPc.isOut]
        · refine ⟨j.execute e.st.cfg e.st.kubeClient ctx, ?_⟩
          simp only [hset]
          rw [← hl, List.getElem?_append_right (Nat.le_refl _)]
          simp
      | executed err => exact ⟨[], e, rfl, hm, rfl, rfl, rfl, err, hi⟩
      | sent => simp [WorkerPc.isOut] at hout
      | done => simp [WorkerPc.isOut] at hout
    obtain ⟨pre, e1, hr1, hm1, hb1, hst1, hu1, err, hi1⟩ := hexec
    have hI1 := Inv_run pre hI hr1
    have hen := send_enabled hI1 hi1
    have herr := hI1.exec_ok _ (List.getElem?_mem hi1) err rfl
    simp only at herr
    obtain ⟨l1, l2, hws, hl, hset⟩ := getElem?_split hi1
    have hstep : step render ctx t (.send i) e1 =
        some { e1 with statusChan := e1.statusChan ++ [publish w.j err],
                       workers := e1.workers.set i ⟨w.j, .sent⟩ } := by
      simp [step, hi1, hen.1, hen.2]
    have hI2 := Inv_step _ hI1 hstep
    have hrest : rest.Perm (unsent s0.cfg s0.kubeClient ctx (e1.workers.set i ⟨w.j, .sent⟩)) := by
      rw [← hu1, hws, unsent_split] at hp
      rw [hset, unsent_split]
      simp only [WorkerPc.isOut, Bool.false_eq_true, if_false, if_true, List.append_nil] at hp ⊢
      rw [hwx, List.append_assoc, List.singleton_append] at hp
      exact (hp.trans List.perm_middle).cons_inv
    obtain ⟨sched, e3, hr3, hm3, hall, hb3, hst3⟩ := ih _ hI2 hm1 hrest
    refine ⟨pre ++ .send i :: sched, e3, ?_, hm3, hall, ?_, ?_⟩
    · rw [runSchedule_append, hr1]
      simp [runSchedule, hstep, hr3]
    · rw [hb3]
      simp only [hb1, List.append_assoc, List.singleton_append]
      rw [herr, ← hwx, worker]
    · rw [hst3, hst1]

theorem Fifo_step {render : jobStatus → String} {ctx : Context} {t : Int} {s0 : State}
    {start : Int} {order : List jobStatus} {e e2 : Exec} (a : Action)
    (hs : e.start = start) (hF : Fifo render t s0 start order e)
    (h : step render ctx t a e = some e2) : Fifo render t s0 start order e2 := by
  obtain ⟨pending, workers, main, closer, buf, cap, closed, wg, start1, st⟩ := e
  obtain ⟨f1, f2, arrived, f3, f4⟩ := hF
  simp only at hs f1 f2 f3 f4
  cases a with
  | spawn =>
    cases main <;> cases pending <;> simp [step] at h
    exact absurd rfl f1
  | spawnCloser =>
    cases main <;> cases pending <;> simp [step] at h
    exact absurd rfl f1
  | exec i =>
    simp only [step] at h
    split at h
    · rename_i j hw
      have := f2 _ (List.getElem?_mem hw)
      simp [WorkerPc.isOut] at this
    · simp at h
  | send i =>
    simp only [step] at h
    split at h
    · rename_i j err hw
      have := f2 _ (List.getElem?_mem hw)
      simp [WorkerPc.isOut] at this
    · simp at h
  | done i =>
    simp only [step] at h
    split at h
    · rename_i j hw
      obtain ⟨l1, l2, hws, -, hset⟩ := getElem?_split hw
      split_ifs at h with hc
      simp only [Option.some.injEq] at h
      subst h
      simp only [hset]
      subst hws
      refine ⟨f1, ?_, arrived, f3, f4⟩
      intro w hw
      simp only [List.mem_append, List.mem_cons] at hw
      rcases hw with hw | hw | hw
      · exact f2 w (by simp [hw])
      · subst hw; rfl
      · exact f2 w (by simp [hw])
    · simp at h
  | wake =>
    cases closer <;> simp [step] at h
    obtain ⟨hw, h⟩ := h
    subst h
    exact ⟨f1, f2, arrived, f3, f4⟩
  | close =>
    cases closer <;> simp [step] at h
    obtain ⟨hc, h⟩ := h
    subst h
    exact ⟨f1, f2, arrived, f3, f4⟩
  | recv =>
    cases main <;> cases buf <;> simp [step] at h
    subst h
    rename_i status rest
    refine ⟨f1, f2, arrived ++ [status], by simpa using f3, ?_⟩
    simp only [reduceCtorEq, if_false] at f4 ⊢
    simp [List.foldl_append, f4]
  | finish =>
    cases main <;> cases buf <;> simp [step] at h
    obtain ⟨hc, h⟩ := h
    subst h
    refine ⟨by simp, f2, arrived, f3, ?_⟩
    simp only [reduceCtorEq, if_false, if_true] at f4 ⊢
    rw [f4, hs]

/-- From every moment at which the statuses are bound to be received in the
order `order`, some schedule brings `execute` to its return. -/
theorem run_to_return_fifo {render : jobStatus → String} {ctx : Context} {t : Int} {s0 : State}
    {jobs : List job} {start : Int} {order : List jobStatus} (n : Nat) (e : Exec)
    (hn : stepsLeft e = n) (hI : Inv render ctx t s0 jobs start e)
    (hF : Fifo render t s0 start order e) :
    ∃ sched e2, runSchedule render ctx t sched e = some e2 ∧ e2.main = .returned ∧
      Fifo render t s0 start order e2 := by
  induction n generalizing e with
  | zero =>
    refine ⟨[], e, rfl, ?_, hF⟩
    rcases hmain : e.main with _ | _ | _
    · simp [stepsLeft, hmain, MainPc.weight] at hn
    · simp [stepsLeft, hmain, MainPc.weight] at hn
    · rfl
  | succ n ih =>
    by_cases hm : e.main = .returned
    · exact ⟨[], e, rfl, hm, hF⟩
    · obtain ⟨a, e1, h1⟩ := progress hI hm
      have := stepsLeft_step a hI h1
      obtain ⟨sched, e2, h2, h3, h4⟩ :=
        ih e1 (by omega) (Inv_step a hI h1) (Fifo_step a hI.start_eq hF h1)
      exact ⟨a :: sched, e2, by simp [runSchedule, h1, h2], h3, h4⟩

/-- Every order of arrival of the statuses is the order of some run. -/
theorem execute_any_order (render : jobStatus → String) (start t : Int) (ctx : Context)
    (c : String) (m : JobMap) (s : State) (order : List jobStatus)
    (hp : order.Perm ((mapIndex m c).map (worker s.cfg s.kubeClient ctx))) :
    ∃ sched, execute render sched start t ctx c m s =
      some (addElapsed start t (order.foldl (loopBody render) s)) := by
  have hI0 := Inv_init render ctx t start c m s
  obtain ⟨sch1, e1, hr1, hm1, hw1, hb1, hst1⟩ :=
    spawn_all render ctx t (mapIndex m c)
      (initExec start c m s) rfl rfl
  have hI1 := Inv_run sch1 hI0 hr1
  have hu : unsent s.cfg s.kubeClient ctx e1.workers =
      (mapIndex m c).map (worker s.cfg s.kubeClient ctx) := by
    rw [hw1]
    simp [initExec, unsent, List.filter_map, Function.comp_def, WorkerPc.isOut]
  obtain ⟨sch2, e2, hr2, hm2, hall2, hb2, hst2⟩ :=
    send_in_order order e1 hI1 hm1 (by rw [hu]; exact hp)
  have hI2 := Inv_run sch2 hI1 hr2
  have hF2 : Fifo render t s start order e2 := by
    refine ⟨by simp [hm2], hall2, [], ?_, ?_⟩
    · rw [hb2, hb1]; simp [initExec]
    · rw [hst2, hst1]; simp [hm2, initExec]
  obtain ⟨sch3, e3, hr3, hm3, -, -, arrived, ha, hst3⟩ := run_to_return_fifo _ e2 rfl hI2 hF2
  have hI3 := Inv_run sch3 hI2 hr3
  have hb3 := (hI3.returned_ok hm3).1
  rw [hb3, List.append_nil] at ha
  refine ⟨sch1 ++ (sch2 ++ sch3), ?_⟩
  unfold execute
  rw [runSchedule_append, hr1, Option.some_bind, runSchedule_append, hr2, Option.some_bind, hr3]
  simp [hm3, hst3, ha]

/-! ## Consequences for the package variables -/

theorem worker_cases (cfg : Config) (kc : KubeClient) (ctx : Context) (j : job) :
    worker cfg kc ctx j =
      match j.execute cfg kc ctx with
      | none => { job := j.identify, status := true, err := none }
      | some err => { job := j.identify, status := false, err := some err } := by
  unfold worker publish
  cases j.execute cfg kc ctx <;> rfl

/-- The finished jobs after a call of `execute` that returns. -/
theorem execute_finishedJobs {render : jobStatus → String} {sched : List Action} {start t : Int}
    {ctx : Context} {c : String} {m : JobMap} {s s2 : State}
    (h : execute render sched start t ctx c m s = some s2) :
    ∃ new : List jobStatus, s2.finishedJobs = s.finishedJobs ++ new ∧
      new.Perm ((mapIndex m c).map (worker s.cfg s.kubeClient ctx)) ∧
      s2.log = s.log ++ new.flatMap (statusLines render) := by
  obtain ⟨arrived, hp, rfl⟩ := execute_returns h
  refine ⟨arrived, ?_, hp, ?_⟩
  · rw [foldl_loopBody, filter_ne_emptyJob hp]
    rfl
  · rw [foldl_loopBody]
    rfl

theorem length_flatMap_two {α β : Type} (f : α → List β) (l : List α)
    (h : ∀ a ∈ l, (f a).length = 2) : (l.flatMap f).length = 2 * l.length := by
  induction l with
  | nil => simp
  | cons a rest ih =>
    simp only [List.flatMap_cons, List.length_append, List.length_cons]
    rw [h a (by simp), ih (fun b hb => h b (by simp [hb]))]
    omega

/-! ## Registry -/

theorem mapIndex_mapStore_same (m : JobMap) (c : component) (v : List job) :
    mapIndex (mapStore m c v) c = v := by
  simp [mapIndex, mapStore]

theorem mapIndex_mapStore_other (m : JobMap) {c c2 : component} (v : List job) (h : c2 ≠ c) :
    mapIndex (mapStore m c v) c2 = mapIndex m c2 := by
  simp [mapIndex, mapStore, h]

theorem RegistryOk_register (j : job) {s : State} (h : RegistryOk s) :
    RegistryOk (register j s).2 := by
  obtain ⟨hpre, hpost⟩ := h
  unfold register
  rcases hw : j.when with ⟨c, p⟩
  simp only
  split_ifs with h1 h2
  · refine ⟨fun c2 j2 hj2 => ?_, hpost⟩
    simp only at hj2
    by_cases hc : c2 = c
    · subst hc
      rw [mapIndex_mapStore_same, List.mem_append, List.mem_singleton] at hj2
      rcases hj2 with hj2 | hj2
      · exact hpre _ _ hj2
      · rw [hj2, hw, h1]
    · rw [mapIndex_mapStore_other _ _ hc] at hj2
      exact hpre _ _ hj2
  · refine ⟨hpre, fun c2 j2 hj2 => ?_⟩
    simp only at hj2
    by_cases hc : c2 = c
    · subst hc
      rw [mapIndex_mapStore_same, List.mem_append, List.mem_singleton] at hj2
      rcases hj2 with hj2 | hj2
      · exact hpost _ _ hj2
      · rw [hj2, hw, h2]
    · rw [mapIndex_mapStore_other _ _ hc] at hj2
      exact hpost _ _ hj2
  · exact ⟨hpre, hpost⟩

theorem RegistryOk_resetMap (exec : executionTime) {s : State} (h : RegistryOk s) :
    RegistryOk (resetMap exec s) := by
  obtain ⟨hpre, hpost⟩ := h
  unfold resetMap
  split_ifs
  · exact ⟨fun c j hj => by simp [mapIndex, emptyMap] at hj, hpost⟩
  · exact ⟨hpre, fun c j hj => by simp [mapIndex, emptyMap] at hj⟩
  · exact ⟨hpre, hpost⟩

/-- A dispatch leaves both registry maps as they were. -/
theorem execute_maps {render : jobStatus → String} {sched : List Action} {start t : Int}
    {ctx : Context} {c : String} {m : JobMap} {s s2 : State}
    (h : execute render sched start t ctx c m s = some s2) :
    s2.preJobMap = s.preJobMap ∧ s2.postJobMap = s.postJobMap := by
  obtain ⟨arrived, -, rfl⟩ := execute_returns h
  rw [foldl_loopBody]
  exact ⟨rfl, rfl⟩

theorem RegistryOk_call {render : jobStatus → String} (k : Call) {s s2 : State}
    (h : RegistryOk s) (hr : k.run render s = some s2) : RegistryOk s2 := by
  cases k with
  | register j =>
    simp only [Call.run, Option.some.injEq] at hr
    exact hr ▸ RegistryOk_register j h
  | resetMap exec =>
    simp only [Call.run, Option.some.injEq] at hr
    exact hr ▸ RegistryOk_resetMap exec h
  | ExecutePre sched start t ctx c =>
    obtain ⟨h1, h2⟩ := execute_maps (show execute _ _ _ _ _ _ _ _ = some s2 from hr)
    exact ⟨by rw [h1]; exact h.1, by rw [h2]; exact h.2⟩
  | ExecutePost sched start t ctx c =>
    obtain ⟨h1, h2⟩ := execute_maps (show execute _ _ _ _ _ _ _ _ = some s2 from hr)
    exact ⟨by rw [h1]; exact h.1, by rw [h2]; exact h.2⟩
  | _ =>
    simp only [Call.run, Option.some.injEq] at hr
    exact hr ▸ h

theorem RegistryOk_runCalls {render : jobStatus → String} (calls : List Call) {s s2 : State}
    (h : RegistryOk s) (hr : runCalls render calls s = some s2) : RegistryOk s2 := by
  induction calls generalizing s with
  | nil =>
    simp only [runCalls, Option.some.injEq] at hr
    exact hr ▸ h
  | cons k rest ih =>
    simp only [runCalls, Option.bind_eq_some] at hr
    obtain ⟨s1, h1, h2⟩ := hr
    exact ih (RegistryOk_call k h h1) h2

theorem RegistryOk_empty {s : State} (h1 : s.preJobMap = emptyMap)
    (h2 : s.postJobMap = emptyMap) : RegistryOk s := by
  constructor <;> intro c j hj
  · simp [h1, mapIndex, emptyMap] at hj
  · simp [h2, mapIndex, emptyMap] at hj

/-! ## Counting the steps of a run -/

theorem stage_set {e : Exec} {k : Nat} {w : Worker} (hw : e.workers[k]? = some w)
    (w2 : Worker) (i : Nat) (e2 : Exec) (he : e2.workers = e.workers.set k w2) :
    stage e2 i = if k = i then w2.pc.code else stage e i := by
  have hk : k < e.workers.length := by
    by_contra hc
    rw [List.getElem?_eq_none (by omega)] at hw
    simp at hw
  unfold stage
  rw [he, List.getElem?_set]
  by_cases h : k = i
  · subst h
    simp [hk]
  · simp [h]

theorem stage_spawn {e : Exec} (j : job) (i : Nat) (e2 : Exec)
    (he : e2.workers = e.workers ++ [{ j := j, pc := .ready }]) :
    stage e2 i = stage e i := by
  unfold stage
  rw [he]
  rcases Nat.lt_or_ge i e.workers.length with h | h
  · rw [List.getElem?_append_left h]
  · rw [List.getElem?_append_right h, List.getElem?_eq_none h]
    cases hi : i - e.workers.length with
    | zero => simp [WorkerPc.code]
    | succ n => simp

theorem stage_same {e e2 : Exec} (i : Nat) (he : e2.workers = e.workers) :
    stage e2 i = stage e i := by
  unfold stage
  rw [he]

/-- Each step `exec i`, `send i`, `done i` moves worker `i` one stage on, from the stage
before it, and no other step moves it. -/
theorem stage_step {render : jobStatus → String} {ctx : Context} {t : Int} {e e2 : Exec}
    (a : Action) (h : step render ctx t a e = some e2) (i : Nat) :
    ((if 1 ≤ stage e2 i then 1 else 0) =
      (if 1 ≤ stage e i then 1 else 0) + (if a = .exec i then 1 else 0)) ∧
    ((if 2 ≤ stage e2 i then 1 else 0) =
      (if 2 ≤ stage e i then 1 else 0) + (if a = .send i then 1 else 0)) ∧
    ((if 3 ≤ stage e2 i then 1 else 0) =
      (if 3 ≤ stage e i then 1 else 0) + (if a = .done i then 1 else 0)) := by
  cases a with
  | spawn =>
    simp only [step] at h
    split at h
    · simp only [Option.some.injEq] at h
      subst h
      rename_i j rest _ _
      rw [stage_spawn (e := e) j i _ rfl]
      simp
    · simp at h
  | spawnCloser =>
    simp only [step] at h
    split at h
    · simp only [Option.some.injEq] at h
      subst h
      simp [stage]
    · simp at h
  | exec k =>
    simp only [step] at h
    split at h
    · rename_i j hw
      simp only [Option.some.injEq] at h
      subst h
      rw [stage_set (e := e) hw _ i _ rfl]
      by_cases hk : k = i
      · subst hk
        simp [stage, hw, WorkerPc.code]
      · simp [hk]
    · simp at h
  | send k =>
    simp only [step] at h
    split at h
    · rename_i j err hw
      split_ifs at h
      simp only [Option.some.injEq] at h
      subst h
      rw [stage_set (e := e) hw _ i _ rfl]
      by_cases hk : k = i
      · subst hk
        simp [stage, hw, WorkerPc.code]
      · simp [hk]
    · simp at h
  | done k =>
    simp only [step] at h
    split at h
    · rename_i j hw
      split_ifs at h
      simp only [Option.some.injEq] at h
      subst h
      rw [stage_set (e := e) hw _ i _ rfl]
      by_cases hk : k = i
      · subst hk
        simp [stage, hw, WorkerPc.code]
      · simp [hk]
    · simp at h
  | wake =>
    simp only [step] at h
    split at h
    · split_ifs at h
      simp only [Option.some.injEq] at h
      subst h
      simp [stage]
    · simp at h
  | close =>
    simp only [step] at h
    split at h
    · split_ifs at h
      simp only [Option.some.injEq] at h
      subst h
      simp [stage]
    · simp at h
  | recv =>
    simp only [step] at h
    split at h
    · simp only [Option.some.injEq] at h
      subst h
      simp [stage]
    · simp at h
  | finish =>
    simp only [step] at h
    split at h
    · split_ifs at h
      simp only [Option.some.injEq] at h
      subst h
      simp [stage]
    · simp at h

theorem stage_run {render : jobStatus → String} {ctx : Context} {t : Int}
    (sched : List Action) {e e2 : Exec} (h : runSchedule render ctx t sched e = some e2)
    (i : Nat) :
    ((if 1 ≤ stage e2 i then 1 else 0) =
      (if 1 ≤ stage e i then 1 else 0) + sched.count (.exec i)) ∧
    ((if 2 ≤ stage e2 i then 1 else 0) =
      (if 2 ≤ stage e i then 1 else 0) + sched.count (.send i)) ∧
    ((if 3 ≤ stage e2 i then 1 else 0) =
      (if 3 ≤ stage e i then 1 else 0) + sched.count (.done i)) := by
  induction sched generalizing e with
  | nil =>
    simp only [runSchedule, Option.some.injEq] at h
    subst h
    simp
  | cons a rest ih =>
    simp only [runSchedule, Option.bind_eq_some] at h
    obtain ⟨e1, h1, h2⟩ := h
    obtain ⟨s1, s2, s3⟩ := stage_step a h1 i
    obtain ⟨r1, r2, r3⟩ := ih h2
    simp only [List.count_cons, beq_iff_eq]
    refine ⟨?_, ?_, ?_⟩
    · rw [r1, s1]; omega
    · rw [r2, s2]; omega
    · rw [r3, s3]; omega

theorem outCount_split (l1 l2 : List Worker) (w : Worker) :
    outCount (l1 ++ w :: l2) =
      outCount l1 + (if w.pc.isOut = true then 1 else 0) + outCount l2 := by
  unfold outCount
  by_cases h : w.pc.isOut = true <;> simp [List.countP_cons, h]
  omega

/-- Only `spawn` starts a worker, and only `recv` takes a status off the channel. -/
theorem tally_step {render : jobStatus → String} {ctx : Context} {t : Int} {e e2 : Exec}
    (a : Action) (h : step render ctx t a e = some e2) :
    e2.workers.length = e.workers.length + (if a = .spawn then 1 else 0) ∧
    outCount e2.workers + e.statusChan.length =
      outCount e.workers + e2.statusChan.length + (if a = .recv then 1 else 0) := by
  obtain ⟨pending, workers, main, closer, buf, cap, closed, wg, start1, st⟩ := e
  cases a with
  | spawn =>
    cases main <;> cases pending <;> simp [step] at h
    subst h
    simp [outCount, WorkerPc.isOut]
  | spawnCloser =>
    cases main <;> cases pending <;> simp [step] at h
    subst h
    simp
  | exec i =>
    simp only [step] at h
    split at h
    · rename_i j hw
      obtain ⟨l1, l2, hws, -, hset⟩ := getElem?_split hw
      simp only [Option.some.injEq] at h
      subst h
      simp only [hset]
      subst hws
      simp [outCount_split, WorkerPc.isOut]
    · simp at h
  | send i =>
    simp only [step] at h
    split at h
    · rename_i j err hw
      obtain ⟨l1, l2, hws, -, hset⟩ := getElem?_split hw
      split_ifs at h with hc hl
      simp only [Option.some.injEq] at h
      subst h
      simp only [hset]
      subst hws
      simp [outCount_split, WorkerPc.isOut]
      omega
    · simp at h
  | done i =>
    simp only [step] at h
    split at h
    · rename_i j hw
      obtain ⟨l1, l2, hws, -, hset⟩ := getElem?_split hw
      split_ifs at h with hc
      simp only [Option.some.injEq] at h
      subst h
      simp only [hset]
      subst hws
      simp [outCount_split, WorkerPc.isOut]
    · simp at h
  | wake =>
    cases closer <;> simp [step] at h
    obtain ⟨hw, h⟩ := h
    subst h
    simp
  | close =>
    cases closer <;> simp [step] at h
    obtain ⟨hc, h⟩ := h
    subst h
    simp
  | recv =>
    cases main <;> cases buf <;> simp [step] at h
    subst h
    simp
    omega
  | finish =>
    cases main <;> cases buf <;> simp [step] at h
    obtain ⟨hc, h⟩ := h
    subst h
    simp

theorem tally_run {render : jobStatus → String} {ctx : Context} {t : Int}
    (sched : List Action) {e e2 : Exec} (h : runSchedule render ctx t sched e = some e2) :
    e2.workers.length = e.workers.length + sched.count .spawn ∧
    outCount e2.workers + e.statusChan.length =
      outCount e.workers + e2.statusChan.length + sched.count .recv := by
  induction sched generalizing e with
  | nil =>
    simp only [runSchedule, Option.some.injEq] at h
    subst h
    simp
  | cons a rest ih =>
    simp only [runSchedule, Option.bind_eq_some] at h
    obtain ⟨e1, h1, h2⟩ := h
    obtain ⟨s1, s2⟩ := tally_step a h1
    obtain ⟨r1, r2⟩ := ih h2
    simp only [List.count_cons, beq_iff_eq]
    constructor
    · rw [r1, s1]; omega
    · omega

theorem outCount_all_done {ws : List Worker} (h : ∀ w ∈ ws, w.pc = .done) :
    outCount ws = ws.length := by
  rw [outCount, List.countP_eq_length]
  intro w hw
  simp [h w hw, WorkerPc.isOut]

theorem stage_all_done {e : Exec} (h : ∀ w ∈ e.workers, w.pc = .done) (i : Nat) :
    stage e i = if i < e.workers.length then 3 else 0 := by
  unfold stage
  split_ifs with hi
  · rw [List.getElem?_eq_getElem hi]
    simp only
    rw [h _ (List.getElem_mem _)]
    rfl
  · rw [List.getElem?_eq_none (by omega)]

/-! ## The duration counter -/

/-- Once the channel is closed every job of the bucket has a worker that is over. -/
theorem Inv_closed {render : jobStatus → String} {ctx : Context} {t : Int} {s0 : State}
    {jobs : List job} {start : Int} {e : Exec} (hI : Inv render ctx t s0 jobs start e)
    (hc : e.chanClosed = true) :
    e.wg = 0 ∧ e.pending = [] ∧ e.workers.map (fun w => w.j) = jobs ∧
    e.workers.length = jobs.length ∧ (∀ w ∈ e.workers, w.pc = .done) := by
  have hcl := hI.closed_iff.mp hc
  have hwg := hI.woken_wg (Or.inr hcl)
  have hms : e.main ≠ .spawning := by
    intro hm
    have := hI.main_spawn.mp hm
    rw [hcl] at this
    exact absurd this (by simp)
  have hp := hI.pending_nil hms
  have hj := hI.jobs_eq
  rw [hp, List.append_nil] at hj
  have hlen : e.workers.length = jobs.length := by rw [← hj]; simp
  have hcnt : doneCount e.workers = e.workers.length := by
    have := hI.wg_eq
    omega
  rw [doneCount, List.countP_eq_length] at hcnt
  exact ⟨hwg, hp, hj, hlen, fun w hw => by simpa using hcnt w hw⟩

theorem stepsLeft_returned {render : jobStatus → String} {ctx : Context} {t : Int} {s0 : State}
    {jobs : List job} {start : Int} {e : Exec} (hI : Inv render ctx t s0 jobs start e)
    (hm : e.main = .returned) : stepsLeft e = 0 := by
  obtain ⟨hp, -, hd, hb, -, hcl, -⟩ := Inv_returned hI hm
  have hsum : (e.workers.map (fun w => w.pc.weight)).sum = 0 := by
    apply List.sum_eq_zero
    intro x hx
    obtain ⟨w, hw, rfl⟩ := List.mem_map.mp hx
    rw [hd w hw]
    rfl
  simp [stepsLeft, hp, hb, hm, hcl, hsum, MainPc.weight, CloserPc.weight]

/-- Before the last step of `execute` the counter is what it was on entry, and the last
step is taken once every status has been received. -/
theorem duration_step {render : jobStatus → String} {ctx : Context} {t : Int} {s0 : State}
    {jobs : List job} {start : Int} {e e2 : Exec} (a : Action)
    (hI : Inv render ctx t s0 jobs start e) (h : step render ctx t a e = some e2) :
    e.st.duration = s0.duration ∧
    (a ≠ .finish → e2.st.duration = e.st.duration) ∧
    (a = .finish → e.statusChan = [] ∧ e.workers.length = jobs.length ∧
      (∀ w ∈ e.workers, w.pc = .done) ∧
      e.st.finishedJobs.length = s0.finishedJobs.length + jobs.length ∧
      e2.st.duration = wrapInt64 (s0.duration + timeSub t start)) := by
  have hnr : e.main ≠ .returned := by
    intro hm
    have h1 := stepsLeft_returned hI hm
    have h2 := stepsLeft_step a hI h
    omega
  obtain ⟨arrived, hp, hst⟩ := hI.consumed
  rw [if_neg hnr] at hst
  have hd : e.st.duration = s0.duration := by rw [hst, foldl_loopBody]
  have hI2 := Inv_step a hI h
  refine ⟨hd, ?_, ?_⟩
  · intro ha
    have hnr2 : e2.main ≠ .returned := by
      intro hm2
      cases a <;> simp only [step] at h <;> split at h <;>
        first
        | (simp at h; done)
        | (split_ifs at h <;> simp only [Option.some.injEq] at h <;> subst h <;> simp_all)
        | (simp only [Option.some.injEq] at h; subst h; simp_all)
    obtain ⟨arrived2, -, hst2⟩ := hI2.consumed
    rw [if_neg hnr2] at hst2
    rw [hd, hst2, foldl_loopBody]
  · intro ha
    subst ha
    simp only [step] at h
    split at h
    · rename_i hmain hbuf
      split_ifs at h with hc
      simp only [Option.some.injEq] at h
      obtain ⟨-, -, hj, hlen, hall⟩ := Inv_closed hI hc
      rw [hbuf, List.append_nil, published_all_done _ _ _ hall, hj] at hp
      refine ⟨hbuf, hlen, hall, ?_, ?_⟩
      · rw [hst, foldl_loopBody, filter_ne_emptyJob hp]
        simp [hp.length_eq]
      · rw [← h]
        simp only [addElapsed, hd, hI.start_eq]
    · simp at h


theorem duration_call {render : jobStatus → String} (k : Call) {s s2 : State}
    (hk : k.clearsDuration = false) (hr : k.run render s = some s2) :
    s2.duration = s.duration ∧ k.elapsed = 0 ∨
    s2.duration = wrapInt64 (s.duration + k.elapsed) := by
  cases k with
  | ExecutePre sched start t ctx c =>
    obtain ⟨arrived, -, rfl⟩ := execute_returns (show execute _ _ _ _ _ _ _ _ = some s2 from hr)
    right
    simp [addElapsed, foldl_loopBody, Call.elapsed]
  | ExecutePost sched start t ctx c =>
    obtain ⟨arrived, -, rfl⟩ := execute_returns (show execute _ _ _ _ _ _ _ _ = some s2 from hr)
    right
    simp [addElapsed, foldl_loopBody, Call.elapsed]
  | GetDuration => simp [Call.clearsDuration] at hk
  | resetDuration => simp [Call.clearsDuration] at hk
  | register j =>
    simp only [Call.run, Option.some.injEq] at hr
    subst hr
    left
    refine ⟨?_, rfl⟩
    unfold register
    rcases j.when with ⟨c, p⟩
    simp only
    split_ifs <;> rfl
  | resetMap exec =>
    simp only [Call.run, Option.some.injEq] at hr
    subst hr
    left
    refine ⟨?_, rfl⟩
    unfold resetMap
    split_ifs <;> rfl
  | _ =>
    simp only [Call.run, Option.some.injEq] at hr
    subst hr
    exact Or.inl ⟨rfl, rfl⟩

theorem wrapInt64_of_range {x : Int} (h1 : minDuration ≤ x) (h2 : x ≤ maxDuration) :
    wrapInt64 x = x := by
  simp only [wrapInt64, maxDuration, minDuration] at *
  omega

/-- Over calls that do not clear the counter, `duration` grows by the sum of the elapsed
times, as long as that sum stays an `int64`. -/
theorem duration_runCalls {render : jobStatus → String} (calls : List Call) {s s2 : State}
    (hk : ∀ k ∈ calls, k.clearsDuration = false) (hpos : ∀ k ∈ calls, 0 ≤ k.elapsed)
    (hmin : minDuration ≤ s.duration)
    (hmax : s.duration + (calls.map Call.elapsed).sum ≤ maxDuration)
    (hr : runCalls render calls s = some s2) :
    s2.duration = s.duration + (calls.map Call.elapsed).sum := by
  induction calls generalizing s with
  | nil =>
    simp only [runCalls, Option.some.injEq] at hr
    subst hr
    simp
  | cons k rest ih =>
    simp only [runCalls, Option.bind_eq_some] at hr
    obtain ⟨s1, h1, h2⟩ := hr
    have hk0 := hpos k (by simp)
    have hrest : 0 ≤ (rest.map Call.elapsed).sum := by
      apply List.sum_nonneg
      intro x hx
      obtain ⟨k2, hk2, rfl⟩ := List.mem_map.mp hx
      exact hpos k2 (by simp [hk2])
    simp only [List.map_cons, List.sum_cons] at hmax ⊢
    have hs1 : s1.duration = s.duration + k.elapsed := by
      rcases duration_call k (hk k (by simp)) h1 with ⟨hd, he⟩ | hd
      · rw [hd, he]; simp
      · rw [hd, wrapInt64_of_range (by omega) (by omega)]
    have := ih (fun k2 hk2 => hk k2 (by simp [hk2])) (fun k2 hk2 => hpos k2 (by simp [hk2]))
      (by omega) (by omega) h2
    omega

/-! ## Properties of the package -/

/-- C1: `ExecutePre` (resp. `ExecutePost`) leaves `finishedJobs` equal to what it was
followed by exactly one new entry per job of the bucket `preJobMap[c]` (resp.
`postJobMap[c]`), in some order: `(j.identify(), true, nil)` when `j.execute` returns nil,
`(j.identify(), false, err)` when it returns `err`. No status a worker sends equals the
zero value `jobStatus{}`, and every order of the new entries is the outcome of some run. -/
theorem C1_finished_jobs_extended (render : jobStatus → String) (ctx : Context) (c : String)
    (s : State) (start t : Int) :
    (∀ j : job, worker s.cfg s.kubeClient ctx j ≠ emptyJob) ∧
    (∀ sched s2, ExecutePre render sched start t ctx c s = some s2 →
      ∃ new : List jobStatus, s2.finishedJobs = s.finishedJobs ++ new ∧
        new.length = (mapIndex s.preJobMap c).length ∧
        new.Perm ((mapIndex s.preJobMap c).map (fun j =>
          match j.execute s.cfg s.kubeClient ctx with
          | none => { job := j.identify, status := true, err := none }
          | some err => { job := j.identify, status := false, err := some err }))) ∧
    (∀ order : List jobStatus,
      order.Perm ((mapIndex s.preJobMap c).map (worker s.cfg s.kubeClient ctx)) →
      ∃ sched s2, ExecutePre render sched start t ctx c s = some s2 ∧
        s2.finishedJobs = s.finishedJobs ++ order) ∧
    (∀ sched s2, ExecutePost render sched start t ctx c s = some s2 →
      ∃ new : List jobStatus, s2.finishedJobs = s.finishedJobs ++ new ∧
        new.length = (mapIndex s.postJobMap c).length ∧
        new.Perm ((mapIndex s.postJobMap c).map (fun j =>
          match j.execute s.cfg s.kubeClient ctx with
          | none => { job := j.identify, status := true, err := none }
          | some err => { job := j.identify, status := false, err := some err }))) ∧
    (∀ order : List jobStatus,
      order.Perm ((mapIndex s.postJobMap c).map (worker s.cfg s.kubeClient ctx)) →
      ∃ sched s2, ExecutePost render sched start t ctx c s = some s2 ∧
        s2.finishedJobs = s.finishedJobs ++ order) := by
  have key : ∀ (m : JobMap) sched s2, execute render sched start t ctx c m s = some s2 →
      ∃ new : List jobStatus, s2.finishedJobs = s.finishedJobs ++ new ∧
        new.length = (mapIndex m c).length ∧
        new.Perm ((mapIndex m c).map (fun j =>
          match j.execute s.cfg s.kubeClient ctx with
          | none => { job := j.identify, status := true, err := none }
          | some err => { job := j.identify, status := false, err := some err })) := by
    intro m sched s2 h
    obtain ⟨new, h1, h2, -⟩ := execute_finishedJobs h
    refine ⟨new, h1, by simpa using h2.length_eq, ?_⟩
    have : (fun j => worker s.cfg s.kubeClient ctx j) = _ :=
      funext (worker_cases s.cfg s.kubeClient ctx)
    rw [← this]
    exact h2
  have any : ∀ (m : JobMap) (order : List jobStatus),
      order.Perm ((mapIndex m c).map (worker s.cfg s.kubeClient ctx)) →
      ∃ sched s2, execute render sched start t ctx c m s = some s2 ∧
        s2.finishedJobs = s.finishedJobs ++ order := by
    intro m order hp
    obtain ⟨sched, h⟩ := execute_any_order render start t ctx c m s order hp
    refine ⟨sched, _, h, ?_⟩
    rw [foldl_loopBody, filter_ne_emptyJob hp]
    rfl
  exact ⟨worker_ne_emptyJob s.cfg s.kubeClient ctx, key s.preJobMap, any s.preJobMap,
    key s.postJobMap, any s.postJobMap⟩

/-- C1 at `componentOne` of the test suite: some run records `sampleTwo` before
`sampleOne`. -/
theorem C1_finished_jobs_extended_witness :
    ∃ sched s2, ExecutePre renderName sched 10 25 0 "componentOne" testState = some s2 ∧
      s2.finishedJobs = testState.finishedJobs ++
        [{ job := "sampleTwo", status := true, err := none },
         { job := "sampleOne", status := true, err := none }] :=
  (C1_finished_jobs_extended renderName 0 "componentOne" testState 10 25).2.2.1
    [{ job := "sampleTwo", status := true, err := none },
     { job := "sampleOne", status := true, err := none }]
    (List.Perm.swap _ _ _)

/-- C2: in every run of `execute`, each job of the bucket whose `execute` returns an error
`e` gets the log line "Following job failed while execution: `name` with error: e" and the
failed status `(name, false, e)` appended to `finishedJobs`, and each job of the bucket
whose `execute` returns nil gets its success status `(name, true, nil)` appended. Some
run of the call does return. -/
theorem C2_failure_reported (render : jobStatus → String) (sched : List Action)
    (start t : Int) (ctx : Context) (c : String) (m : JobMap) (s s2 : State)
    (h : execute render sched start t ctx c m s = some s2) :
    (∃ (new : List jobStatus) (lines : List String),
      s2.finishedJobs = s.finishedJobs ++ new ∧ s2.log = s.log ++ lines ∧
      ∀ j ∈ mapIndex m c,
        (∀ e, j.execute s.cfg s.kubeClient ctx = some e →
          ("Following job failed while execution: `" ++ j.identify ++ "` with error: " ++ e)
            ∈ lines ∧
          ({ job := j.identify, status := false, err := some e } : jobStatus) ∈ new) ∧
        (j.execute s.cfg s.kubeClient ctx = none →
          ({ job := j.identify, status := true, err := none } : jobStatus) ∈ new)) ∧
    (∃ sched1 s3, execute render sched1 start t ctx c m s = some s3) := by
  refine ⟨?_, execute_total render start t ctx c m s⟩
  obtain ⟨new, h1, h2, h3⟩ := execute_finishedJobs h
  refine ⟨new, _, h1, h3, ?_⟩
  intro j hj
  have hmem : worker s.cfg s.kubeClient ctx j ∈ new :=
    h2.mem_iff.mpr (List.mem_map_of_mem _ hj)
  refine ⟨fun e he => ?_, fun he => ?_⟩
  · have hw : worker s.cfg s.kubeClient ctx j = { job := j.identify, status := false, err := some e } := by
      simp [worker, publish, he]
    rw [hw] at hmem
    refine ⟨?_, hmem⟩
    rw [List.mem_flatMap]
    refine ⟨_, hmem, ?_⟩
    simp [statusLines, emptyJob, errText]
  · have hw : worker s.cfg s.kubeClient ctx j = { job := j.identify, status := true, err := none } := by
      simp [worker, publish, he]
    rw [hw] at hmem
    exact hmem

/-- C2 on the test suite: the bucket of `componentFour` (the job `sampleFive` alone) and a
bucket that holds `sampleOne` and `sampleFive`. -/
theorem C2_failure_reported_witness :
    (∃ s2, execute renderName (eagerSchedule 1) 10 25 0 "componentFour" mixedJobMap initState
        = some s2 ∧
      "Following job failed while execution: `sampleFive` with error: JobFiveError" ∈ s2.log ∧
      ({ job := "sampleFive", status := false, err := some "JobFiveError" } : jobStatus)
        ∈ s2.finishedJobs) ∧
    (∃ s2, execute renderName (eagerSchedule 2) 10 25 0 "mixed" mixedJobMap initState = some s2 ∧
      "Following job failed while execution: `sampleFive` with error: JobFiveError" ∈ s2.log ∧
      ({ job := "sampleFive", status := false, err := some "JobFiveError" } : jobStatus)
        ∈ s2.finishedJobs ∧
      ({ job := "sampleOne", status := true, err := none } : jobStatus) ∈ s2.finishedJobs) := by
  constructor
  · have hs : (execute renderName (eagerSchedule 1) 10 25 0 "componentFour" mixedJobMap
        initState).isSome = true := by decide
    obtain ⟨s2, h⟩ := Option.isSome_iff_exists.mp hs
    obtain ⟨⟨new, lines, h1, h2, h3⟩, -⟩ :=
      C2_failure_reported renderName (eagerSchedule 1) 10 25 0 "componentFour" mixedJobMap
        initState s2 h
    have h5 := (h3 sampleFive (by simp [mixedJobMap, mapIndex, mapStore])).1 "JobFiveError" rfl
    refine ⟨s2, h, ?_, ?_⟩
    · rw [h2]; exact List.mem_append_right _ h5.1
    · rw [h1]; exact List.mem_append_right _ h5.2
  · have hs : (execute renderName (eagerSchedule 2) 10 25 0 "mixed" mixedJobMap
        initState).isSome = true := by decide
    obtain ⟨s2, h⟩ := Option.isSome_iff_exists.mp hs
    obtain ⟨⟨new, lines, h1, h2, h3⟩, -⟩ :=
      C2_failure_reported renderName (eagerSchedule 2) 10 25 0 "mixed" mixedJobMap
        initState s2 h
    have h5 := (h3 sampleFive (by simp [mixedJobMap, mapIndex, mapStore])).1 "JobFiveError" rfl
    have h6 := (h3 sampleOne (by simp [mixedJobMap, mapIndex, mapStore])).2 rfl
    refine ⟨s2, h, ?_, ?_, ?_⟩
    · rw [h2]; exact List.mem_append_right _ h5.1
    · rw [h1]; exact List.mem_append_right _ h5.2
    · rw [h1]; exact List.mem_append_right _ h6
/-- C3, as the code has it: a dispatch of a bucket of `n` jobs writes exactly `2 * n` lines
to the log. For each job, in the order of arrival, it writes the line "Job Status: "
followed by the rendering of the status, and right after it the line
"Following job executed: name" when the job succeeded, or
"Following job failed while execution: `name` with error: text" when it failed. Some run
of the dispatch does return. -/
theorem C3_log_lines (render : jobStatus → String) (sched : List Action)
    (start t : Int) (ctx : Context) (c : String) (m : JobMap) (s s2 : State)
    (h : execute render sched start t ctx c m s = some s2) :
    (∃ arrived : List jobStatus,
      arrived.Perm ((mapIndex m c).map (worker s.cfg s.kubeClient ctx)) ∧
      s2.log = s.log ++ arrived.flatMap (fun status =>
        ["Job Status: " ++ render status,
         if status.status = true then "Following job executed: " ++ status.job
         else "Following job failed while execution: `" ++ status.job ++ "` with error: "
           ++ errText status.err]) ∧
      s2.log.length = s.log.length + 2 * (mapIndex m c).length) ∧
    (∃ sched1 s3, execute render sched1 start t ctx c m s = some s3) := by
  refine ⟨?_, execute_total render start t ctx c m s⟩
  obtain ⟨new, -, h2, h3⟩ := execute_finishedJobs h
  have hne : ∀ st ∈ new, st ≠ emptyJob := by
    intro st hst
    obtain ⟨j, -, rfl⟩ := List.mem_map.mp (h2.mem_iff.mp hst)
    exact worker_ne_emptyJob _ _ _ j
  have hlines : new.flatMap (statusLines render) = new.flatMap (fun status =>
        ["Job Status: " ++ render status,
         if status.status = true then "Following job executed: " ++ status.job
         else "Following job failed while execution: `" ++ status.job ++ "` with error: "
           ++ errText status.err]) := by
    simp only [List.flatMap]
    congr 1
    apply List.map_congr_left
    intro st hst
    simp only [statusLines, if_neg (hne st hst)]
    split_ifs <;> rfl
  rw [hlines] at h3
  refine ⟨new, h2, h3, ?_⟩
  rw [h3, List.length_append, length_flatMap_two, h2.length_eq]
  · simp
  · intro a _
    rfl

/-- C3 at `componentFour` of the test suite. -/
theorem C3_log_lines_witness :
    ∃ s2, execute renderName (eagerSchedule 1) 10 25 0 "componentFour" initJobMap initState
        = some s2 ∧ s2.log.length = initState.log.length + 2 * 1 := by
  have hs : (execute renderName (eagerSchedule 1) 10 25 0 "componentFour" initJobMap
      initState).isSome = true := by decide
  obtain ⟨s2, h⟩ := Option.isSome_iff_exists.mp hs
  obtain ⟨⟨arrived, -, -, h3⟩, -⟩ :=
    C3_log_lines renderName (eagerSchedule 1) 10 25 0 "componentFour" initJobMap initState s2 h
  exact ⟨s2, h, h3⟩

/-- C3 as stated fails: the bucket of `componentFour` holds one job, `sampleFive`, and its
dispatch writes two lines, the second of which is "Following job failed while execution:
`sampleFive` with error: JobFiveError", and none of which is "job failed: `sampleFive` with
error: `JobFiveError`". -/
theorem C3_counterexample :
    (mapIndex initJobMap "componentFour").length = 1 ∧
    (execute renderName (eagerSchedule 1) 10 25 0 "componentFour" initJobMap initState).map
      (fun s2 => s2.log.length) = some 2 ∧
    (execute renderName (eagerSchedule 1) 10 25 0 "componentFour" initJobMap initState).map
      (fun s2 => s2.log.drop 1) =
      some ["Following job failed while execution: `sampleFive` with error: JobFiveError"] ∧
    (execute renderName (eagerSchedule 1) 10 25 0 "componentFour" initJobMap initState).map
      (fun s2 => decide ("job failed: `sampleFive` with error: `JobFiveError`" ∈ s2.log)) =
      some false := by
  refine ⟨by decide, by decide, by decide, by decide⟩

/-- C4: for a job that declares `(c, Pre)`, `register` returns 0 and appends the job at the
end of `preJobMap[c]` (twice when called twice), every other bucket of `preJobMap` and the
whole of `postJobMap` staying as they were; the same with `postJobMap` for a job that
declares `(c, Post)`. In every state reached from empty registry maps by calls of the
package, every job in `preJobMap[c]` declares `(c, Pre)` and every job in `postJobMap[c]`
declares `(c, Post)`. -/
theorem C4_register_appends (render : jobStatus → String) (j : job) (s : State) :
    (register j s).1 = 0 ∧
    (∀ c, j.when = (c, Pre) →
      mapIndex (register j s).2.preJobMap c = mapIndex s.preJobMap c ++ [j] ∧
      mapIndex (register j (register j s).2).2.preJobMap c = mapIndex s.preJobMap c ++ [j, j] ∧
      (∀ c2, c2 ≠ c → (register j s).2.preJobMap c2 = s.preJobMap c2) ∧
      (register j s).2.postJobMap = s.postJobMap) ∧
    (∀ c, j.when = (c, Post) →
      mapIndex (register j s).2.postJobMap c = mapIndex s.postJobMap c ++ [j] ∧
      mapIndex (register j (register j s).2).2.postJobMap c = mapIndex s.postJobMap c ++ [j, j] ∧
      (∀ c2, c2 ≠ c → (register j s).2.postJobMap c2 = s.postJobMap c2) ∧
      (register j s).2.preJobMap = s.preJobMap) ∧
    (∀ (calls : List Call) (s0 s1 : State),
      s0.preJobMap = emptyMap → s0.postJobMap = emptyMap →
      runCalls render calls s0 = some s1 →
      (∀ c j, j ∈ mapIndex s1.preJobMap c → j.when = (c, Pre)) ∧
      (∀ c j, j ∈ mapIndex s1.postJobMap c → j.when = (c, Post))) := by
  refine ⟨?_, ?_, ?_, ?_⟩
  · unfold register
    rcases j.when with ⟨c, p⟩
    simp only
    split_ifs <;> rfl
  · intro c hw
    simp [register, hw, Pre, mapIndex_mapStore_same]
    intro c2 hc
    simp [mapStore, hc]
  · intro c hw
    simp [register, hw, Pre, Post, mapIndex_mapStore_same]
    intro c2 hc
    simp [mapStore, hc]
  · intro calls s0 s1 h1 h2 hr
    exact RegistryOk_runCalls calls (RegistryOk_empty h1 h2) hr

/-- C4 on the test suite: `sampleOne` registered twice from the initial state. -/
theorem C4_register_appends_witness :
    mapIndex (register sampleOne initState).2.preJobMap "componentOne"
        = mapIndex initState.preJobMap "componentOne" ++ [sampleOne] ∧
    mapIndex (register sampleOne (register sampleOne initState).2).2.preJobMap "componentOne"
        = mapIndex initState.preJobMap "componentOne" ++ [sampleOne, sampleOne] ∧
    (∀ c2, c2 ≠ "componentOne" →
      (register sampleOne initState).2.preJobMap c2 = initState.preJobMap c2) ∧
    (register sampleOne initState).2.postJobMap = initState.postJobMap :=
  (C4_register_appends renderName sampleOne initState).2.1 "componentOne" rfl

/-- C5: a dispatch for a component that is absent from the map, or bound to an empty
sequence, writes no log line, appends nothing to `finishedJobs`, leaves both registry maps
as they were and adds `t.Sub(start)` to `duration`, which is not negative when the clock
has not gone back; the counter grows by that amount as long as it stays an `int64`. Such a
dispatch does return. -/
theorem C5_empty_bucket (render : jobStatus → String) (sched : List Action)
    (start t : Int) (ctx : Context) (c : String) (m : JobMap) (s s2 : State)
    (hb : m c = none ∨ m c = some [])
    (h : execute render sched start t ctx c m s = some s2) :
    s2.log = s.log ∧ s2.finishedJobs = s.finishedJobs ∧
    s2.preJobMap = s.preJobMap ∧ s2.postJobMap = s.postJobMap ∧
    s2.duration = wrapInt64 (s.duration + timeSub t start) ∧
    (start ≤ t → 0 ≤ timeSub t start) ∧
    (start ≤ t → t - start ≤ maxDuration → timeSub t start = t - start) ∧
    (start ≤ t → minDuration ≤ s.duration → s.duration + timeSub t start ≤ maxDuration →
      s2.duration = s.duration + timeSub t start ∧ s.duration ≤ s2.duration) ∧
    (∃ sched1 s3, execute render sched1 start t ctx c m s = some s3) := by
  have hnil : mapIndex m c = [] := by
    rcases hb with hb | hb <;> simp [mapIndex, hb]
  obtain ⟨arrived, hp, rfl⟩ := execute_returns h
  rw [hnil] at hp
  have ha : arrived = [] := by simpa using hp
  subst ha
  have hsub : start ≤ t → 0 ≤ timeSub t start := by
    intro hle
    simp only [timeSub, maxDuration, minDuration]
    omega
  refine ⟨rfl, rfl, rfl, rfl, rfl, hsub, ?_, ?_, execute_total render start t ctx c m s⟩
  · intro hle hmax
    simp only [timeSub, maxDuration, minDuration] at hmax ⊢
    omega
  · intro hle hmin hmax
    have h0 := hsub hle
    simp only [addElapsed, List.foldl_nil]
    have : wrapInt64 (s.duration + timeSub t start) = s.duration + timeSub t start := by
      simp only [wrapInt64, maxDuration, minDuration] at hmin hmax ⊢
      omega
    rw [this]
    exact ⟨rfl, by omega⟩

/-- C5 at `nonExistingComponent` of the test suite. -/
theorem C5_empty_bucket_witness :
    ∃ s2, execute renderName (eagerSchedule 0) 10 25 0 "nonExistingComponent" initJobMap
        initState = some s2 ∧ s2.log = [] ∧ s2.finishedJobs = [] ∧ s2.duration = 15 := by
  have hs : (execute renderName (eagerSchedule 0) 10 25 0 "nonExistingComponent" initJobMap
      initState).isSome = true := by decide
  obtain ⟨s2, h⟩ := Option.isSome_iff_exists.mp hs
  have hc := C5_empty_bucket renderName (eagerSchedule 0) 10 25 0 "nonExistingComponent"
    initJobMap initState s2 (Or.inl (by simp [initJobMap, mapStore, emptyMap])) h
  refine ⟨s2, h, hc.1, hc.2.1, ?_⟩
  rw [hc.2.2.2.2.1]
  decide

/-- C6: `GetDuration` returns the accumulated duration and leaves the counter at zero
(`resetDuration` sets it to zero whatever it was), so a second call right after returns
zero, while the first returns a non-zero value when the counter was non-zero; it changes
neither registry map nor `finishedJobs`. -/
theorem C6_GetDuration_read_then_clear (s : State) :
    (GetDuration s).1 = s.duration ∧
    (GetDuration s).2.duration = 0 ∧
    (resetDuration s).duration = 0 ∧
    (GetDuration (GetDuration s).2).1 = 0 ∧
    (s.duration ≠ 0 → (GetDuration s).1 ≠ 0) ∧
    (GetDuration s).2.preJobMap = s.preJobMap ∧
    (GetDuration s).2.postJobMap = s.postJobMap ∧
    (GetDuration s).2.finishedJobs = s.finishedJobs :=
  ⟨rfl, by simp [GetDuration, resetDuration], by simp [resetDuration],
    by simp [GetDuration, resetDuration], fun h => h, rfl, rfl, rfl⟩

/-- C6 at the value of the test `duration should be reset`: one hour and ten seconds. -/
theorem C6_GetDuration_read_then_clear_witness :
    (GetDuration { initState with duration := 3610000000000 }).1 = 3610000000000 ∧
    (resetDuration { initState with duration := 3610000000000 }).duration = 0 ∧
    (GetDuration (GetDuration { initState with duration := 3610000000000 }).2).1 = 0 ∧
    (GetDuration { initState with duration := 3610000000000 }).1 ≠ 0 :=
  ⟨(C6_GetDuration_read_then_clear { initState with duration := 3610000000000 }).1,
   (C6_GetDuration_read_then_clear { initState with duration := 3610000000000 }).2.2.1,
   (C6_GetDuration_read_then_clear { initState with duration := 3610000000000 }).2.2.2.1,
   (C6_GetDuration_read_then_clear { initState with duration := 3610000000000 }).2.2.2.2.1
     (by decide)⟩

/-- C7: each dispatch, whatever its bucket and the outcomes of its jobs, adds `t.Sub(start)`
to `duration` in `int64` arithmetic, which is the plain sum as long as the sum stays an
`int64`; the counter keeps its value of entry until the last step of `execute`, which is
taken when every status has been received. Over calls that do not clear the counter it
grows by the sum of the elapsed times of the dispatches, and `GetDuration` then returns
that sum and clears the counter. Every dispatch has a run that returns. -/
theorem C7_duration_accumulates (render : jobStatus → String) :
    (∀ (sched : List Action) (start t : Int) (ctx : Context) (c : String) (m : JobMap)
        (s s2 : State),
      execute render sched start t ctx c m s = some s2 →
      s2.duration = wrapInt64 (s.duration + timeSub t start) ∧
      (minDuration ≤ s.duration + timeSub t start → s.duration + timeSub t start ≤ maxDuration →
        s2.duration = s.duration + timeSub t start) ∧
      (minDuration ≤ t - start → t - start ≤ maxDuration → timeSub t start = t - start)) ∧
    (∀ (sched : List Action) (start t : Int) (ctx : Context) (c : String) (m : JobMap)
        (s : State) (e e2 : Exec) (a : Action),
      runSchedule render ctx t sched (initExec start c m s) = some e →
      step render ctx t a e = some e2 →
      e.st.duration = s.duration ∧
      (a ≠ .finish → e2.st.duration = e.st.duration) ∧
      (a = .finish → e.statusChan = [] ∧ e.workers.length = (mapIndex m c).length ∧
        (∀ w ∈ e.workers, w.pc = .done) ∧
        e.st.finishedJobs.length = s.finishedJobs.length + (mapIndex m c).length ∧
        e2.st.duration = wrapInt64 (s.duration + timeSub t start))) ∧
    (∀ (calls : List Call) (s s2 : State),
      (∀ k ∈ calls, k.clearsDuration = false) → (∀ k ∈ calls, 0 ≤ k.elapsed) →
      minDuration ≤ s.duration → s.duration + (calls.map Call.elapsed).sum ≤ maxDuration →
      runCalls render calls s = some s2 →
      s2.duration = s.duration + (calls.map Call.elapsed).sum ∧
      (GetDuration s2).1 = s.duration + (calls.map Call.elapsed).sum ∧
      (GetDuration s2).2.duration = 0) ∧
    (∀ (start t : Int) (ctx : Context) (c : String) (m : JobMap) (s : State),
      ∃ sched s2, execute render sched start t ctx c m s = some s2) := by
  refine ⟨?_, ?_, ?_, fun start t ctx c m s => execute_total render start t ctx c m s⟩
  · intro sched start t ctx c m s s2 h
    obtain ⟨arrived, -, rfl⟩ := execute_returns h
    have hd : (addElapsed start t (arrived.foldl (loopBody render) s)).duration
        = wrapInt64 (s.duration + timeSub t start) := by
      rw [foldl_loopBody]
      rfl
    refine ⟨hd, fun h1 h2 => by rw [hd, wrapInt64_of_range h1 h2], fun h1 h2 => ?_⟩
    simp only [timeSub, maxDuration, minDuration] at h1 h2 ⊢
    omega
  · intro sched start t ctx c m s e e2 a hr hs
    exact duration_step a (Inv_run sched (Inv_init render ctx t start c m s) hr) hs
  · intro calls s s2 hk hpos hmin hmax hr
    have := duration_runCalls calls hk hpos hmin hmax hr
    exact ⟨this, this, by simp [GetDuration, resetDuration]⟩

/-- C7 on the test suite: a dispatch of `componentOne` that takes 15 ns, a registration and
a dispatch of `nonExistingComponent` that takes 2 ns leave 17 ns in the counter. -/
theorem C7_duration_accumulates_witness :
    ∃ s2, runCalls renderName
        [.ExecutePre (eagerSchedule 2) 10 25 0 "componentOne", .register sampleFour,
         .ExecutePost (eagerSchedule 0) 30 32 0 "nonExistingComponent"] testState = some s2 ∧
      s2.duration = 17 ∧ (GetDuration s2).1 = 17 ∧ (GetDuration s2).2.duration = 0 := by
  have hs : (runCalls renderName
      [.ExecutePre (eagerSchedule 2) 10 25 0 "componentOne", .register sampleFour,
       .ExecutePost (eagerSchedule 0) 30 32 0 "nonExistingComponent"] testState).isSome
      = true := by decide
  obtain ⟨s2, h⟩ := Option.isSome_iff_exists.mp hs
  have hc := (C7_duration_accumulates renderName).2.2.1 _ testState s2
    (by decide) (by decide) (by decide) (by decide) h
  exact ⟨s2, h, hc.1, hc.2.1, hc.2.2⟩

/-- C8: `resetMap(Pre)` leaves `preJobMap` empty, every lookup in it yielding the empty
sequence, and leaves `postJobMap`, `finishedJobs` and `duration` as they were;
`resetMap(Post)` does the same with the two maps exchanged. -/
theorem C8_resetMap_one_phase (s : State) :
    ((resetMap Pre s).preJobMap = emptyMap ∧
     (∀ c, (resetMap Pre s).preJobMap c = none ∧ mapIndex (resetMap Pre s).preJobMap c = []) ∧
     (resetMap Pre s).postJobMap = s.postJobMap ∧
     (resetMap Pre s).finishedJobs = s.finishedJobs ∧
     (resetMap Pre s).duration = s.duration) ∧
    ((resetMap Post s).postJobMap = emptyMap ∧
     (∀ c, (resetMap Post s).postJobMap c = none ∧ mapIndex (resetMap Post s).postJobMap c = []) ∧
     (resetMap Post s).preJobMap = s.preJobMap ∧
     (resetMap Post s).finishedJobs = s.finishedJobs ∧
     (resetMap Post s).duration = s.duration) := by
  refine ⟨⟨rfl, fun c => ⟨rfl, rfl⟩, rfl, rfl, rfl⟩, ⟨rfl, fun c => ⟨rfl, rfl⟩, rfl, rfl, rfl⟩⟩

/-- C8 on the maps of the tests `preMap should be reset` and `postMap should be reset`. -/
theorem C8_resetMap_one_phase_witness :
    (resetMap Pre filledState).preJobMap = emptyMap ∧
    (resetMap Pre filledState).postJobMap = filledState.postJobMap ∧
    (resetMap Post filledState).postJobMap = emptyMap ∧
    (resetMap Post filledState).preJobMap = filledState.preJobMap :=
  ⟨(C8_resetMap_one_phase filledState).1.1, (C8_resetMap_one_phase filledState).1.2.2.1,
   (C8_resetMap_one_phase filledState).2.1, (C8_resetMap_one_phase filledState).2.2.2.1⟩

/-- C9: at every moment of every interleaving of the goroutines of `execute`, at most
`5 * N + 4` steps have been taken, the channel has the capacity `N` of the bucket, a worker that holds its result can send it at once (the
channel is open and its buffer is not full), the channel is closed only when the wait group
counter is 0 and all `N` workers are over, `execute` has returned only when all `N` workers
are over and all `N` statuses have been received, some goroutine can take a step as long as
`execute` has not returned, and the call can be brought to its return. In every complete
run each job of the bucket gets one worker, which calls `j.execute` once, sends once and
signals once, and `N` statuses are received. -/
theorem C9_goroutines (render : jobStatus → String) (ctx : Context) (t start : Int)
    (c : String) (m : JobMap) (s : State) :
    (∀ (sched : List Action) (e : Exec),
      runSchedule render ctx t sched (initExec start c m s) = some e →
      e.chanCap = (mapIndex m c).length ∧ sched.length ≤ 5 * (mapIndex m c).length + 4 ∧
      (∀ (i : Nat) (j : job) (err : GoError), e.workers[i]? = some ⟨j, .executed err⟩ →
        e.chanClosed = false ∧ e.statusChan.length < e.chanCap ∧
        (step render ctx t (.send i) e).isSome = true) ∧
      (∀ (i : Nat) (j : job), e.workers[i]? = some ⟨j, .sent⟩ →
        (step render ctx t (.done i) e).isSome = true) ∧
      (e.chanClosed = true →
        e.wg = 0 ∧ e.workers.length = (mapIndex m c).length ∧ ∀ w ∈ e.workers, w.pc = .done) ∧
      (e.main = .returned →
        e.workers.map (fun w => w.j) = mapIndex m c ∧ (∀ w ∈ e.workers, w.pc = .done) ∧
        e.statusChan = [] ∧ e.chanClosed = true ∧
        e.st.finishedJobs.length = s.finishedJobs.length + (mapIndex m c).length) ∧
      (e.main ≠ .returned → ∃ a e2, step render ctx t a e = some e2) ∧
      (∃ rest e2, runSchedule render ctx t rest e = some e2 ∧ e2.main = .returned)) ∧
    (∀ (sched : List Action) (e : Exec),
      runSchedule render ctx t sched (initExec start c m s) = some e → e.main = .returned →
      sched.length = 5 * (mapIndex m c).length + 4 ∧
      sched.count .spawn = (mapIndex m c).length ∧
      sched.count .recv = (mapIndex m c).length ∧
      (∀ i, i < (mapIndex m c).length →
        sched.count (.exec i) = 1 ∧ sched.count (.send i) = 1 ∧ sched.count (.done i) = 1) ∧
      (∀ i, (mapIndex m c).length ≤ i →
        sched.count (.exec i) = 0 ∧ sched.count (.send i) = 0 ∧ sched.count (.done i) = 0)) := by
  have hI0 := Inv_init render ctx t start c m s
  constructor
  · intro sched e hr
    have hI := Inv_run sched hI0 hr
    refine ⟨hI.cap_eq, ?_, ?_, ?_, ?_, ?_, fun hm => progress hI hm, run_to_return _ e rfl hI⟩
    · have hsteps := stepsLeft_run sched hI0 hr
      simp [stepsLeft, initExec, MainPc.weight, CloserPc.weight] at hsteps
      omega
    · intro i j err hw
      have hen := send_enabled hI hw
      exact ⟨hen.1, hen.2, by simp [step, hw, hen.1, hen.2]⟩
    · intro i j hw
      have hen := done_enabled hI hw
      simp [step, hw, hen]
    · intro hc
      obtain ⟨h1, -, -, h4, h5⟩ := Inv_closed hI hc
      exact ⟨h1, h4, h5⟩
    · intro hm
      obtain ⟨-, hj, hd, hb, hc, -, -⟩ := Inv_returned hI hm
      refine ⟨hj, hd, hb, hc, ?_⟩
      obtain ⟨arrived, hp, hst⟩ := hI.consumed
      rw [hb, List.append_nil, published_all_done _ _ _ hd, hj] at hp
      rw [if_pos hm] at hst
      rw [hst, foldl_loopBody, filter_ne_emptyJob hp]
      simp [addElapsed, hp.length_eq]
  · intro sched e hr hm
    have hI := Inv_run sched hI0 hr
    obtain ⟨-, hj, hd, hb, -, -, -⟩ := Inv_returned hI hm
    have hlen : e.workers.length = (mapIndex m c).length := by rw [← hj]; simp
    have hsteps := stepsLeft_run sched hI0 hr
    rw [stepsLeft_returned hI hm] at hsteps
    obtain ⟨t1, t2⟩ := tally_run sched hr
    rw [outCount_all_done hd, hb, hlen] at t2
    rw [hlen] at t1
    refine ⟨?_, ?_, ?_, ?_, ?_⟩
    · simp [stepsLeft, initExec, MainPc.weight, CloserPc.weight] at hsteps
      omega
    · simp [initExec] at t1
      omega
    · simp [initExec, outCount] at t2
      omega
    · intro i hi
      obtain ⟨c1, c2, c3⟩ := stage_run sched hr i
      rw [stage_all_done hd, hlen, if_pos hi] at c1 c2 c3
      simp [stage, initExec] at c1 c2 c3
      omega
    · intro i hi
      obtain ⟨c1, c2, c3⟩ := stage_run sched hr i
      rw [stage_all_done hd, hlen, if_neg (Nat.not_lt.mpr hi)] at c1 c2 c3
      simp [stage, initExec] at c1 c2 c3
      omega

/-- C9 at `componentOne` of the test suite: the run in which every goroutine runs to its
end as soon as it is started. -/
theorem C9_goroutines_witness :
    (eagerSchedule 2).length = 5 * 2 + 4 ∧ (eagerSchedule 2).count .spawn = 2 ∧
    (eagerSchedule 2).count .recv = 2 ∧
    (eagerSchedule 2).count (.exec 1) = 1 ∧ (eagerSchedule 2).count (.send 1) = 1 ∧
    (eagerSchedule 2).count (.done 1) = 1 := by
  have hs : ((runSchedule renderName 0 25 (eagerSchedule 2)
      (initExec 10 "componentOne" initJobMap initState)).map (fun e => decide (e.main = .returned)))
      = some true := by decide
  obtain ⟨e, he, hm⟩ := Option.map_eq_some'.mp hs
  have hc := (C9_goroutines renderName 0 25 10 "componentOne" initJobMap initState).2
    (eagerSchedule 2) e he (by simpa using hm)
  exact ⟨hc.1, hc.2.1, hc.2.2.1, (hc.2.2.2.1 1 (by decide)).1, (hc.2.2.2.1 1 (by decide)).2.1,
    (hc.2.2.2.1 1 (by decide)).2.2⟩

/-- C10: for a job whose declared phase is neither `Pre` (0) nor `Post` (1), `register`
returns 0 and changes no package variable, both registry maps included. In every state
reached from empty registry maps by calls of the package, such a job is in no bucket, and
no dispatch, `ExecutePre` or `ExecutePost`, of any component ever starts a worker for it. -/
theorem C10_register_drops_other_phase (render : jobStatus → String) (j : job) (s : State)
    (h0 : j.when.2 ≠ 0) (h1 : j.when.2 ≠ 1) :
    (register j s).1 = 0 ∧ (register j s).2 = s ∧
    (register j s).2.preJobMap = s.preJobMap ∧ (register j s).2.postJobMap = s.postJobMap ∧
    (∀ (calls : List Call) (s0 s1 : State),
      s0.preJobMap = emptyMap → s0.postJobMap = emptyMap →
      runCalls render calls s0 = some s1 →
      ∀ c : String, j ∉ mapIndex s1.preJobMap c ∧ j ∉ mapIndex s1.postJobMap c ∧
        ∀ (sched : List Action) (start t : Int) (ctx : Context) (e : Exec),
          runSchedule render ctx t sched (initExec start c s1.preJobMap s1) = some e ∨
          runSchedule render ctx t sched (initExec start c s1.postJobMap s1) = some e →
          ∀ w ∈ e.workers, w.j ≠ j) := by
  have hreg : register j s = (0, s) := by
    unfold register
    rcases hw : j.when with ⟨c, p⟩
    rw [hw] at h0 h1
    simp only at h0 h1
    simp [Pre, Post, h0, h1]
  refine ⟨by rw [hreg], by rw [hreg], by rw [hreg], by rw [hreg], ?_⟩
  intro calls s0 s1 e1 e2 hr c
  obtain ⟨hpre, hpost⟩ := RegistryOk_runCalls calls (RegistryOk_empty e1 e2) hr
  have n1 : j ∉ mapIndex s1.preJobMap c := fun hj => by
    have := hpre c j hj
    rw [this] at h0
    exact h0 rfl
  have n2 : j ∉ mapIndex s1.postJobMap c := fun hj => by
    have := hpost c j hj
    rw [this] at h1
    exact h1 rfl
  refine ⟨n1, n2, ?_⟩
  intro sched start t ctx e he w hw hj
  rcases he with he | he
  · have hI := Inv_run sched (Inv_init render ctx t start c s1.preJobMap s1) he
    have : w.j ∈ mapIndex s1.preJobMap c := by
      rw [← hI.jobs_eq]
      exact List.mem_append_left _ (List.mem_map_of_mem _ hw)
    exact n1 (hj ▸ this)
  · have hI := Inv_run sched (Inv_init render ctx t start c s1.postJobMap s1) he
    have : w.j ∈ mapIndex s1.postJobMap c := by
      rw [← hI.jobs_eq]
      exact List.mem_append_left _ (List.mem_map_of_mem _ hw)
    exact n2 (hj ▸ this)

/-- C10 at a job that declares phase 2, registered after the jobs of the test suite. -/
theorem C10_register_drops_other_phase_witness :
    (register sampleLate testState).1 = 0 ∧ (register sampleLate testState).2 = testState :=
  ⟨(C10_register_drops_other_phase renderName sampleLate testState (by decide) (by decide)).1,
   (C10_register_drops_other_phase renderName sampleLate testState (by decide) (by decide)).2.1⟩

end jobmanager
